import Mathlib

/-!
Verification development for the gcli2api protocol translation engine.

The repository translates the Anthropic Messages wire protocol into the
upstream "Antigravity" Gemini-style protocol.  This file gives a shallow
embedding of the data model and the operations the specification talks
about (the request converter, schema normalizer, model mapper, response
converter and the streaming translator) and proves or refutes the
specification's claims about them.

The helper `remove_nulls_for_tool_input` is embedded from
`src/anthropic_helpers.py`.  The converter modules themselves
(`anthropic_converter.py`, `anthropic_streaming.py`,
`antigravity_anthropic_router.py`) are not part of the source tree, only
their test suites are; their embeddings below are modelled from the
specification text, with behaviour pinned by the repository's tests
wherever the tests are explicit.
-/

set_option maxHeartbeats 1000000

namespace Gcli2Api

/-- A JSON-like value: the dynamic values flowing through the converters
(Python dicts, lists, strings, numbers, booleans and `None`). Objects are
ordered association lists, mirroring Python dict insertion order. -/
inductive JVal where
  | null : JVal
  | bool (b : Bool) : JVal
  | num (n : Int) : JVal
  | str (s : String) : JVal
  | arr (xs : List JVal) : JVal
  | obj (kvs : List (String × JVal)) : JVal
deriving Repr

/-- Whether a JSON value is the `null` value (Python `None`). -/
def JVal.isNull : JVal → Bool
  | .null => true
  | _ => false

/-- Whether a JSON value is an object (Python `dict`). -/
def JVal.isObj : JVal → Bool
  | .obj _ => true
  | _ => false

/-- Whether a JSON value is an array (Python `list`). -/
def JVal.isArr : JVal → Bool
  | .arr _ => true
  | _ => false

mutual

/-- Embedded from `src/anthropic_helpers.py`, `remove_nulls_for_tool_input`:
recursively remove null-valued entries from dicts and null elements from
lists; any other value is returned unchanged. -/
def remove_nulls_for_tool_input : JVal → JVal
  | .obj kvs => .obj (removeNullsObj kvs)
  | .arr xs => .arr (removeNullsArr xs)
  | v => v

/-- The list branch of `remove_nulls_for_tool_input`: skip null elements,
recurse into the rest. -/
def removeNullsArr : List JVal → List JVal
  | [] => []
  | x :: xs =>
    if x.isNull then removeNullsArr xs
    else remove_nulls_for_tool_input x :: removeNullsArr xs

/-- The dict branch of `remove_nulls_for_tool_input`: skip null-valued
entries, recurse into the kept values. -/
def removeNullsObj : List (String × JVal) → List (String × JVal)
  | [] => []
  | (k, v) :: kvs =>
    if v.isNull then removeNullsObj kvs
    else (k, remove_nulls_for_tool_input v) :: removeNullsObj kvs

end

mutual

/-- `true` iff no dict entry and no list element is null, at any nesting
depth. -/
def JVal.noNulls : JVal → Bool
  | .obj kvs => noNullsObj kvs
  | .arr xs => noNullsArr xs
  | _ => true

/-- List form of `JVal.noNulls`: every element is non-null and itself
null-free. -/
def noNullsArr : List JVal → Bool
  | [] => true
  | x :: xs => !x.isNull && x.noNulls && noNullsArr xs

/-- Dict form of `JVal.noNulls`: every value is non-null and itself
null-free. -/
def noNullsObj : List (String × JVal) → Bool
  | [] => true
  | (_, v) :: kvs => !v.isNull && v.noNulls && noNullsObj kvs

end

/-- `remove_nulls_for_tool_input` never turns a non-null value into null. -/
theorem remove_nulls_not_null (v : JVal) (h : v.isNull = false) :
    (remove_nulls_for_tool_input v).isNull = false := by
  cases v <;> simp_all [remove_nulls_for_tool_input, JVal.isNull]

mutual

/-- The output of `remove_nulls_for_tool_input` is null-free at every
nesting depth. -/
theorem remove_nulls_noNulls (v : JVal) :
    (remove_nulls_for_tool_input v).noNulls = true := by
  cases v with
  | obj kvs => simpa [remove_nulls_for_tool_input, JVal.noNulls] using
      removeNullsObj_noNulls kvs
  | arr xs => simpa [remove_nulls_for_tool_input, JVal.noNulls] using
      removeNullsArr_noNulls xs
  | null => simp [remove_nulls_for_tool_input, JVal.noNulls]
  | bool b => simp [remove_nulls_for_tool_input, JVal.noNulls]
  | num n => simp [remove_nulls_for_tool_input, JVal.noNulls]
  | str s => simp [remove_nulls_for_tool_input, JVal.noNulls]

/-- List form of `remove_nulls_noNulls`. -/
theorem removeNullsArr_noNulls (xs : List JVal) :
    noNullsArr (removeNullsArr xs) = true := by
  cases xs with
  | nil => simp [removeNullsArr, noNullsArr]
  | cons x xs =>
    by_cases hx : x.isNull
    · simpa [removeNullsArr, hx] using removeNullsArr_noNulls xs
    · have hx' : x.isNull = false := by simpa using hx
      simp [removeNullsArr, hx', noNullsArr, remove_nulls_not_null x hx',
        remove_nulls_noNulls x, removeNullsArr_noNulls xs]

/-- Dict form of `remove_nulls_noNulls`. -/
theorem removeNullsObj_noNulls (kvs : List (String × JVal)) :
    noNullsObj (removeNullsObj kvs) = true := by
  cases kvs with
  | nil => simp [removeNullsObj, noNullsObj]
  | cons kv kvs =>
    obtain ⟨k, v⟩ := kv
    by_cases hv : v.isNull
    · simpa [removeNullsObj, hv] using removeNullsObj_noNulls kvs
    · have hv' : v.isNull = false := by simpa using hv
      simp [removeNullsObj, hv', noNullsObj, remove_nulls_not_null v hv',
        remove_nulls_noNulls v, removeNullsObj_noNulls kvs]

end

/-! ### Rendering JSON values to strings (used for `key: value` description
fragments and for stringifying unknown content). -/

mutual

/-- A simple JSON rendering of a value (model-level serialization). -/
def JVal.render : JVal → String
  | .null => "null"
  | .bool true => "true"
  | .bool false => "false"
  | .num n => toString n
  | .str s => "\"" ++ s ++ "\""
  | .arr xs => "[" ++ renderArr xs ++ "]"
  | .obj kvs => "\x7b" ++ renderObj kvs ++ "\x7d"

/-- Render the elements of a JSON array, comma separated. -/
def renderArr : List JVal → String
  | [] => ""
  | [x] => x.render
  | x :: y :: xs => x.render ++ ", " ++ renderArr (y :: xs)

/-- Render the entries of a JSON object, comma separated. -/
def renderObj : List (String × JVal) → String
  | [] => ""
  | [(k, v)] => "\"" ++ k ++ "\": " ++ v.render
  | (k, v) :: e :: kvs => "\"" ++ k ++ "\": " ++ v.render ++ ", " ++ renderObj (e :: kvs)

end

/-! ### Schema Normalizer (`clean_json_schema`)

Modelled from the spec: `src/anthropic_converter.py` is absent from the
source tree; §4.1 of the spec describes `clean(schema) -> schema`.
Non-object input passes through unchanged; the unsupported dialect keys
are removed; a `type` given as an array is collapsed; unsupported
validation keywords are preserved and also appended to a synthesized
`description`; `properties` values and `items` are cleaned recursively
(non-dict list items pass through unchanged). -/

/-- Schema-dialect keys the upstream does not understand (spec §4.1). -/
def UNSUPPORTED_SCHEMA_KEYS : List String :=
  ["$schema", "$id", "$ref", "oneOf", "anyOf", "allOf"]

/-- Validation keywords that are preserved but also surfaced in the
synthesized description (spec §4.1, "e.g. `minLength`"). -/
def VALIDATION_KEYS : List String :=
  ["minLength", "maxLength", "pattern", "format", "minimum", "maximum",
   "exclusiveMinimum", "exclusiveMaximum", "minItems", "maxItems",
   "minProperties", "maxProperties", "multipleOf"]

/-- Whether a JSON value is the type name `"null"`. -/
def isNullTypeName : JVal → Bool
  | .str s => s == "null"
  | _ => false

/-- Collapse a `type` field value: an array containing only `"null"`
becomes `string` with `nullable: true`; otherwise the first non-null entry
is used and `nullable` is omitted; a non-array value is kept as-is. -/
def collapseType : JVal → List (String × JVal)
  | .arr ts =>
    match ts.filter (fun t => !isNullTypeName t) with
    | [] => [("type", .str "string"), ("nullable", .bool true)]
    | t :: _ => [("type", t)]
  | v => [("type", v)]

/-- The `key: value` description fragments for the validation keywords
present in a schema object. -/
def validationFragments (kvs : List (String × JVal)) : List String :=
  kvs.filterMap fun kv =>
    if VALIDATION_KEYS.contains kv.1 then some (kv.1 ++ ": " ++ kv.2.render)
    else none

/-- Whether a schema object already carries a `description` entry. -/
def hasDescription (kvs : List (String × JVal)) : Bool :=
  kvs.any fun kv => kv.1 == "description"

/-- Assemble the cleaned fields of a schema object, synthesizing a
`description` from the validation fragments of the original fields when
none exists. -/
def describeFields (kvs fields : List (String × JVal)) : JVal :=
  if hasDescription kvs || (validationFragments kvs).isEmpty then .obj fields
  else .obj (fields ++
    [("description", .str (String.intercalate ", " (validationFragments kvs)))])

mutual

/-- Modelled from the spec: `clean_json_schema` of the absent
`src/anthropic_converter.py` (spec §4.1).  Non-object input passes through
unchanged; otherwise the fields are cleaned and, when validation keywords
are present and no `description` exists, a description is synthesized
from their `key: value` fragments. -/
def clean_json_schema : JVal → JVal
  | .obj kvs => describeFields kvs (cleanSchemaFields kvs)
  | v => v

/-- Per-field cleaning of a schema object: drop unsupported keys, collapse
array `type`s, clean `properties` values and `items` recursively, keep
everything else unchanged. -/
def cleanSchemaFields : List (String × JVal) → List (String × JVal)
  | [] => []
  | (k, v) :: rest =>
    if UNSUPPORTED_SCHEMA_KEYS.contains k then cleanSchemaFields rest
    else if k == "type" then collapseType v ++ cleanSchemaFields rest
    else if k == "properties" then (k, cleanPropertiesValue v) :: cleanSchemaFields rest
    else if k == "items" then (k, cleanItemsValue v) :: cleanSchemaFields rest
    else (k, v) :: cleanSchemaFields rest

/-- Clean the value of a `properties` key: each property schema is cleaned
recursively; a non-dict value passes through. -/
def cleanPropertiesValue : JVal → JVal
  | .obj ps => .obj (cleanPropertiesList ps)
  | v => v

/-- Clean each named property schema. -/
def cleanPropertiesList : List (String × JVal) → List (String × JVal)
  | [] => []
  | (k, v) :: ps => (k, clean_json_schema v) :: cleanPropertiesList ps

/-- Clean the value of an `items` key: a single schema is cleaned; a list
of schemas is cleaned element-wise (non-dict items pass through); any
other value passes through. -/
def cleanItemsValue : JVal → JVal
  | .obj kvs => describeFields kvs (cleanSchemaFields kvs)
  | .arr xs => .arr (cleanItemsList xs)
  | v => v

/-- Clean a list of `items` schemas; non-dict list items pass through
unchanged. -/
def cleanItemsList : List JVal → List JVal
  | [] => []
  | .obj kvs :: xs => describeFields kvs (cleanSchemaFields kvs) :: cleanItemsList xs
  | x :: xs => x :: cleanItemsList xs

end

/-! Predicates about unsupported keys in (cleaned) schemas. -/

mutual

/-- `true` iff an unsupported schema key occurs anywhere in the value, at
any nesting depth (under any key, inside any array). -/
def containsUnsupportedKey : JVal → Bool
  | .obj kvs => cukObj kvs
  | .arr xs => cukArr xs
  | _ => false

/-- Object form of `containsUnsupportedKey`. -/
def cukObj : List (String × JVal) → Bool
  | [] => false
  | (k, v) :: rest =>
    UNSUPPORTED_SCHEMA_KEYS.contains k || containsUnsupportedKey v || cukObj rest

/-- Array form of `containsUnsupportedKey`. -/
def cukArr : List JVal → Bool
  | [] => false
  | x :: xs => containsUnsupportedKey x || cukArr xs

end

mutual

/-- `true` iff a schema object has no unsupported keys at its top level
and recursively along the paths `clean_json_schema` actually cleans:
`properties` values and `items` schemas.  Non-object values are
trivially free (the normalizer does not look inside them). -/
def schemaUnsupportedFree : JVal → Bool
  | .obj kvs => schemaFieldsFree kvs
  | _ => true

/-- Field-list form of `schemaUnsupportedFree`. -/
def schemaFieldsFree : List (String × JVal) → Bool
  | [] => true
  | (k, v) :: rest =>
    !UNSUPPORTED_SCHEMA_KEYS.contains k &&
    (if k == "properties" then propertiesFree v
     else if k == "items" then itemsFree v
     else true) &&
    schemaFieldsFree rest

/-- A `properties` value is free iff each property schema is free. -/
def propertiesFree : JVal → Bool
  | .obj ps => propertiesListFree ps
  | _ => true

/-- Named-property form of `propertiesFree`. -/
def propertiesListFree : List (String × JVal) → Bool
  | [] => true
  | (_, v) :: ps => schemaUnsupportedFree v && propertiesListFree ps

/-- An `items` value is free iff the single schema (or each dict element
of the list) is free. -/
def itemsFree : JVal → Bool
  | .obj kvs => schemaFieldsFree kvs
  | .arr xs => itemsListFree xs
  | _ => true

/-- Element form of `itemsFree`. -/
def itemsListFree : List JVal → Bool
  | [] => true
  | x :: xs => schemaUnsupportedFree x && itemsListFree xs

end

/-- Appending field lists preserves and reflects freeness. -/
theorem schemaFieldsFree_append (a b : List (String × JVal)) :
    schemaFieldsFree (a ++ b) = (schemaFieldsFree a && schemaFieldsFree b) := by
  induction a with
  | nil => simp [schemaFieldsFree]
  | cons kv rest ih =>
    obtain ⟨k, v⟩ := kv
    simp [schemaFieldsFree, ih, Bool.and_assoc]

/-- The fields produced by collapsing a `type` value are free. -/
theorem collapseType_free (v : JVal) : schemaFieldsFree (collapseType v) = true := by
  cases v with
  | arr ts =>
    simp only [collapseType]
    cases h : ts.filter (fun t => !isNullTypeName t) with
    | nil => simp [schemaFieldsFree, UNSUPPORTED_SCHEMA_KEYS]
    | cons t rest => simp [schemaFieldsFree, UNSUPPORTED_SCHEMA_KEYS]
  | null => simp [collapseType, schemaFieldsFree, UNSUPPORTED_SCHEMA_KEYS]
  | bool b => simp [collapseType, schemaFieldsFree, UNSUPPORTED_SCHEMA_KEYS]
  | num n => simp [collapseType, schemaFieldsFree, UNSUPPORTED_SCHEMA_KEYS]
  | str s => simp [collapseType, schemaFieldsFree, UNSUPPORTED_SCHEMA_KEYS]
  | obj kvs => simp [collapseType, schemaFieldsFree, UNSUPPORTED_SCHEMA_KEYS]

/-- Cleaning a schema object always yields an object. -/
theorem clean_json_schema_obj_shape (kvs : List (String × JVal)) :
    ∃ out, clean_json_schema (.obj kvs) = .obj out := by
  by_cases h : (hasDescription kvs || (validationFragments kvs).isEmpty) = true
  · exact ⟨cleanSchemaFields kvs, by simp [clean_json_schema, describeFields, h]⟩
  · exact ⟨cleanSchemaFields kvs ++
      [("description", .str (String.intercalate ", " (validationFragments kvs)))],
      by simp [clean_json_schema, describeFields, h]⟩

/-- Description synthesis preserves field freeness. -/
theorem describeFields_free (kvs fields : List (String × JVal))
    (h : schemaFieldsFree fields = true) :
    schemaUnsupportedFree (describeFields kvs fields) = true := by
  unfold describeFields
  by_cases hd : (hasDescription kvs || (validationFragments kvs).isEmpty) = true
  · simpa [hd, schemaUnsupportedFree] using h
  · simp only [hd, Bool.false_eq_true, if_false]
    simp [schemaUnsupportedFree, schemaFieldsFree_append, h, schemaFieldsFree,
      UNSUPPORTED_SCHEMA_KEYS]

/-- Description synthesis preserves item freeness. -/
theorem describeFields_itemsFree (kvs fields : List (String × JVal))
    (h : schemaFieldsFree fields = true) :
    itemsFree (describeFields kvs fields) = true := by
  unfold describeFields
  by_cases hd : (hasDescription kvs || (validationFragments kvs).isEmpty) = true
  · simpa [hd, itemsFree] using h
  · simp only [hd, Bool.false_eq_true, if_false]
    simp [itemsFree, schemaFieldsFree_append, h, schemaFieldsFree,
      UNSUPPORTED_SCHEMA_KEYS]

mutual

/-- The cleaned schema is unsupported-key-free along all cleaned paths. -/
theorem clean_json_schema_free (v : JVal) :
    schemaUnsupportedFree (clean_json_schema v) = true := by
  cases v with
  | obj kvs =>
    simpa [clean_json_schema] using
      describeFields_free kvs _ (cleanSchemaFields_free kvs)
  | null => simp [clean_json_schema, schemaUnsupportedFree]
  | bool b => simp [clean_json_schema, schemaUnsupportedFree]
  | num n => simp [clean_json_schema, schemaUnsupportedFree]
  | str s => simp [clean_json_schema, schemaUnsupportedFree]
  | arr xs => simp [clean_json_schema, schemaUnsupportedFree]

/-- Cleaned field lists are free. -/
theorem cleanSchemaFields_free (kvs : List (String × JVal)) :
    schemaFieldsFree (cleanSchemaFields kvs) = true := by
  cases kvs with
  | nil => simp [cleanSchemaFields, schemaFieldsFree]
  | cons kv rest =>
    obtain ⟨k, v⟩ := kv
    by_cases h1 : k ∈ UNSUPPORTED_SCHEMA_KEYS
    · simpa [cleanSchemaFields, h1] using cleanSchemaFields_free rest
    · by_cases h2 : k = "type"
      · subst h2
        simp [cleanSchemaFields, h1, schemaFieldsFree_append,
          collapseType_free v, cleanSchemaFields_free rest]
      · by_cases h3 : k = "properties"
        · subst h3
          simp [cleanSchemaFields, h1, schemaFieldsFree,
            cleanPropertiesValue_free v, cleanSchemaFields_free rest]
        · by_cases h4 : k = "items"
          · subst h4
            simp [cleanSchemaFields, h1, schemaFieldsFree,
              cleanItemsValue_free v, cleanSchemaFields_free rest]
          · simp [cleanSchemaFields, h1, h2, h3, h4, schemaFieldsFree,
              cleanSchemaFields_free rest]

/-- Cleaned `properties` values are free. -/
theorem cleanPropertiesValue_free (v : JVal) :
    propertiesFree (cleanPropertiesValue v) = true := by
  cases v with
  | obj ps => simpa [cleanPropertiesValue, propertiesFree] using
      cleanPropertiesList_free ps
  | null => simp [cleanPropertiesValue, propertiesFree]
  | bool b => simp [cleanPropertiesValue, propertiesFree]
  | num n => simp [cleanPropertiesValue, propertiesFree]
  | str s => simp [cleanPropertiesValue, propertiesFree]
  | arr xs => simp [cleanPropertiesValue, propertiesFree]

/-- Cleaned property lists are free. -/
theorem cleanPropertiesList_free (ps : List (String × JVal)) :
    propertiesListFree (cleanPropertiesList ps) = true := by
  cases ps with
  | nil => simp [cleanPropertiesList, propertiesListFree]
  | cons p ps =>
    obtain ⟨k, v⟩ := p
    simp [cleanPropertiesList, propertiesListFree,
      clean_json_schema_free v, cleanPropertiesList_free ps]

/-- Cleaned `items` values are free. -/
theorem cleanItemsValue_free (v : JVal) :
    itemsFree (cleanItemsValue v) = true := by
  cases v with
  | obj kvs =>
    simpa [cleanItemsValue] using
      describeFields_itemsFree kvs _ (cleanSchemaFields_free kvs)
  | arr xs => simpa [cleanItemsValue, itemsFree] using cleanItemsList_free xs
  | null => simp [cleanItemsValue, itemsFree]
  | bool b => simp [cleanItemsValue, itemsFree]
  | num n => simp [cleanItemsValue, itemsFree]
  | str s => simp [cleanItemsValue, itemsFree]

/-- Cleaned `items` lists are free. -/
theorem cleanItemsList_free (xs : List JVal) :
    itemsListFree (cleanItemsList xs) = true := by
  cases xs with
  | nil => simp [cleanItemsList, itemsListFree]
  | cons x xs =>
    cases x with
    | obj kvs =>
      simp [cleanItemsList, itemsListFree,
        describeFields_free kvs _ (cleanSchemaFields_free kvs),
        cleanItemsList_free xs]
    | null => simp [cleanItemsList, itemsListFree, schemaUnsupportedFree,
        cleanItemsList_free xs]
    | bool b => simp [cleanItemsList, itemsListFree, schemaUnsupportedFree,
        cleanItemsList_free xs]
    | num n => simp [cleanItemsList, itemsListFree, schemaUnsupportedFree,
        cleanItemsList_free xs]
    | str s => simp [cleanItemsList, itemsListFree, schemaUnsupportedFree,
        cleanItemsList_free xs]
    | arr ys => simp [cleanItemsList, itemsListFree, schemaUnsupportedFree,
        cleanItemsList_free xs]

end

/-! ### Model Mapper (`map_claude_model_to_gemini`)

Modelled from the spec: `src/anthropic_converter.py` is absent; §4.2
describes `map(clientModel) -> upstreamModel` as a total function that
normalizes version suffixes (date suffixes and dotted forms), passes
supported upstream names through unchanged, redirects certain families,
and falls back to a fixed default for unknown or empty input.  The
concrete table entries are pinned by `tests/test_model_mapping.py`. -/

/-- Upstream model identifiers that pass through unchanged
(`tests/test_model_mapping.py`, `TestModelPassThrough`). -/
def SUPPORTED_MODELS : List String :=
  ["gemini-2.5-flash", "gemini-2.5-flash-thinking", "gemini-2.5-pro",
   "gemini-3-pro-low", "gemini-3-pro-high", "gemini-3-pro-image",
   "gemini-3-flash", "gemini-2.5-flash-lite", "gemini-2.5-flash-image",
   "claude-sonnet-4-5", "claude-sonnet-4-5-thinking",
   "claude-opus-4-5-thinking", "gpt-oss-120b-medium"]

/-- Dotted-version aliases normalized to the dashed canonical family. -/
def MODEL_ALIASES : List (String × String) :=
  [("claude-sonnet-4.5", "claude-sonnet-4-5"),
   ("claude-opus-4.5", "claude-opus-4-5"),
   ("claude-haiku-4.5", "claude-haiku-4-5")]

/-- Families that redirect to a different upstream model. -/
def SPECIAL_MODEL_MAP : List (String × String) :=
  [("claude-opus-4-5", "claude-opus-4-5-thinking"),
   ("claude-haiku-4-5", "gemini-2.5-flash"),
   ("claude-3-5-sonnet", "claude-sonnet-4-5"),
   ("claude-opus-4", "gemini-3-pro-high"),
   ("claude-3-haiku", "gemini-2.5-flash")]

/-- The fixed default family for unknown, empty or non-string input. -/
def DEFAULT_CLAUDE_MODEL : String := "claude-sonnet-4-5"

/-- Association-list lookup by string key. -/
def lookupStr : List (String × String) → String → Option String
  | [], _ => none
  | (k, v) :: rest, s => if k == s then some v else lookupStr rest s

/-- Strip a legacy `-YYYYMMDD` date suffix from a model name, when one is
present. -/
def stripDateSuffix (s : String) : String :=
  let cs := s.toList
  let n := cs.length
  match cs.drop (n - 9) with
  | '-' :: ds =>
    if 9 < n && ds.length == 8 && ds.all Char.isDigit then
      String.mk (cs.take (n - 9))
    else s
  | _ => s

/-- Normalize a client model name: strip a date suffix, then resolve a
dotted-version alias to its dashed form. -/
def normalizeModelName (s : String) : String :=
  let s1 := stripDateSuffix s
  match lookupStr MODEL_ALIASES s1 with
  | some t => t
  | none => s1

/-- Modelled from the spec: `map_claude_model_to_gemini` of the absent
`src/anthropic_converter.py` (spec §4.2).  `none` models a non-string
(Python `None`) input. -/
def map_claude_model_to_gemini : Option String → String
  | none => DEFAULT_CLAUDE_MODEL
  | some s =>
    let n := normalizeModelName s
    if SUPPORTED_MODELS.contains n then n
    else
      match lookupStr SPECIAL_MODEL_MAP n with
      | some t => t
      | none => DEFAULT_CLAUDE_MODEL

/-- Every value an association-list lookup can return comes from the
list's value column. -/
theorem lookupStr_mem (L : List (String × String)) (s t : String)
    (h : lookupStr L s = some t) : t ∈ L.map Prod.snd := by
  induction L with
  | nil => simp [lookupStr] at h
  | cons kv rest ih =>
    obtain ⟨k, v⟩ := kv
    by_cases hk : (k == s) = true
    · simp [lookupStr, hk] at h
      simp [h]
    · have hk' : (k == s) = false := by simpa using hk
      simp only [lookupStr, hk', Bool.false_eq_true, if_false] at h
      exact List.mem_cons_of_mem _ (ih h)

/-- Every output of the model mapper is one of the supported upstream
model names. -/
theorem map_claude_model_mem (m : Option String) :
    SUPPORTED_MODELS.contains (map_claude_model_to_gemini m) = true := by
  cases m with
  | none => decide
  | some s =>
    by_cases h : SUPPORTED_MODELS.contains (normalizeModelName s) = true
    · have hm : normalizeModelName s ∈ SUPPORTED_MODELS := by simpa using h
      simp [map_claude_model_to_gemini, h, hm]
    · have hm : normalizeModelName s ∉ SUPPORTED_MODELS := by simpa using h
      cases hl : lookupStr SPECIAL_MODEL_MAP (normalizeModelName s) with
      | none =>
        simp [map_claude_model_to_gemini, hm, hl]
        try decide
      | some t =>
        have hmem := lookupStr_mem _ _ _ hl
        simp only [SPECIAL_MODEL_MAP, List.map, List.mem_cons,
          List.not_mem_nil, or_false] at hmem
        simp [map_claude_model_to_gemini, hm, hl]
        rcases hmem with h1 | h1 | h1 | h1 | h1 <;> subst h1 <;> decide

/-- Each supported model name is a fixed point of the mapper. -/
theorem map_claude_model_fixed (s : String)
    (h : SUPPORTED_MODELS.contains s = true) :
    map_claude_model_to_gemini (some s) = s := by
  have hmem : s ∈ SUPPORTED_MODELS := by simpa using h
  simp only [SUPPORTED_MODELS, List.mem_cons, List.not_mem_nil, or_false] at hmem
  rcases hmem with h1 | h1 | h1 | h1 | h1 | h1 | h1 | h1 | h1 | h1 | h1 | h1 | h1 <;>
    subst h1 <;> decide

/-! ### Request Converter (`convert_messages_to_contents`)

Modelled from the spec: `src/anthropic_converter.py` is absent; §4.3 of
the spec describes the block-by-block conversion of client messages into
upstream `contents`, the Tool Correlation Table (§3), and the thought
signature placement rule.  Behaviour is pinned by
`tests/test_anthropic_converter.py`; in particular
`test_parallel_function_calls_only_first_gets_signature` fixes that the
second and later parallel calls after one thinking block carry no
`thoughtSignature` field at all. -/

/-- A client (Anthropic-format) content block.  `other` is a dict block
with an unrecognized type tag (kept with its raw payload); `nonDict` is a
non-dict item appearing in a content list. -/
inductive CBlock where
  | text (s : String)
  | thinking (thinking : Option String) (signature : Option String)
  | redactedThinking (data : Option String) (signature : Option String)
  | toolUse (id name : String) (input : JVal)
  | toolResult (toolUseId : String) (name : Option String) (content : JVal)
  | other (tag : String) (payload : JVal)
  | nonDict (v : JVal)
deriving Repr

/-- The content of a client message: a plain string, a list of blocks, or
some other (stringified) value. -/
inductive MContent where
  | str (s : String)
  | list (blocks : List CBlock)
  | otherVal (v : JVal)
deriving Repr

/-- A client message: role plus content. -/
structure AMsg where
  role : String
  content : MContent
deriving Repr

/-- An upstream (Gemini-format) content part. -/
inductive GPart where
  | text (s : String)
  | functionCall (id name : String) (args : JVal) (thoughtSignature : Option String)
  | functionResponse (id name output : String)
deriving Repr

/-- An upstream content entry: role plus parts. -/
structure GContent where
  role : String
  parts : List GPart
deriving Repr

/-- The fixed sentinel thought signature used when no thinking block
preceded a call (pinned by the tests). -/
def SKIP_THOUGHT_SIGNATURE : String := "skip_thought_signature_validator"

/-- Modelled from the spec: `_is_non_whitespace_text` — text is kept only
when its stringification has non-whitespace content. -/
def is_non_whitespace_text (s : String) : Bool :=
  !(s.toList.all Char.isWhitespace)

/-- Python-style `str()` of a JSON value: strings render bare, everything
else renders as JSON. -/
def pyStr : JVal → String
  | .str s => s
  | v => v.render

/-- Association-list lookup returning a JSON value. -/
def lookupJ : List (String × JVal) → String → Option JVal
  | [], _ => none
  | (k, v) :: rest, s => if k == s then some v else lookupJ rest s

/-- Modelled from the spec: `_extract_tool_result_output` — a string is
returned as-is, `None` and an empty list give `""`, a list's first
text-typed block gives its text, any other first item is stringified. -/
def extract_tool_result_output : JVal → String
  | .str s => s
  | .null => ""
  | .arr [] => ""
  | .arr (x :: _) =>
    match x with
    | .obj kvs =>
      match lookupJ kvs "type", lookupJ kvs "text" with
      | some (.str "text"), some (.str t) => t
      | some (.str "text"), _ => ""
      | _, _ => (JVal.obj kvs).render
    | v => pyStr v
  | v => v.render

/-- Synthesized fallback name for a tool result: `function_<id>` when the
id is non-empty, else the sentinel `unknown_function`. -/
def synthName (id : String) : String :=
  if id == "" then "unknown_function" else "function_" ++ id

/-- Look a tool-use id up in the correlation table, falling back to the
synthesized name when there is no (non-empty) entry. -/
def lookupName (table : List (String × String)) (id : String) : String :=
  match lookupStr table id with
  | some nm => if nm == "" then synthName id else nm
  | none => synthName id

/-- Resolve a function-response name: explicit non-empty name on the
result, else looked-up name, else synthesized fallback (spec §3). -/
def resolveResponseName (table : List (String × String))
    (explicit : Option String) (id : String) : String :=
  match explicit with
  | some nm => if nm == "" then lookupName table id else nm
  | none => lookupName table id

/-- Per-turn signature-propagation state: the pending captured signature
of the most recent thinking block, and whether any thinking block has
been seen in this turn. -/
structure TurnSt where
  pending : Option String
  thinkingSeen : Bool
deriving Repr

/-- Converter state: the Tool Correlation Table (most recent entry first)
plus the per-turn signature state. -/
structure ConvSt where
  table : List (String × String)
  turn : TurnSt
deriving Repr

/-- Capture a thinking block's signature for propagation; empty
signatures are not captured. -/
def captureSignature (sig : Option String) : Option String :=
  match sig with
  | some s => if s == "" then none else some s
  | none => none

/-- Convert one content block, threading the converter state.  A
`toolUse` consumes the pending signature if one exists, receives the
sentinel when no thinking block was seen this turn, and otherwise
carries no signature field. -/
def stepBlock (includeThinking : Bool) (st : ConvSt) :
    CBlock → ConvSt × List GPart
  | .text s => (st, if is_non_whitespace_text s then [.text s] else [])
  | .thinking t sig =>
    ({ st with turn := { pending := captureSignature sig, thinkingSeen := true } },
     if includeThinking then [.text (t.getD "")] else [])
  | .redactedThinking d sig =>
    match captureSignature sig with
    | none => (st, [])
    | some sg =>
      ({ st with turn := { pending := some sg, thinkingSeen := true } },
       if includeThinking then [.text (d.getD "")] else [])
  | .toolUse id name input =>
    let sigField : Option String :=
      match st.turn.pending with
      | some sg => some sg
      | none =>
        if st.turn.thinkingSeen then none else some SKIP_THOUGHT_SIGNATURE
    ({ table := (id, name) :: st.table,
       turn := { pending := none, thinkingSeen := st.turn.thinkingSeen } },
     [.functionCall id name input sigField])
  | .toolResult id nm content =>
    (st, [.functionResponse id (resolveResponseName st.table nm id)
            (extract_tool_result_output content)])
  | .other _ payload => (st, [.text payload.render])
  | .nonDict v => (st, [.text (pyStr v)])

/-- Convert a list of blocks, threading state left to right. -/
def runBlocks (includeThinking : Bool) (st : ConvSt) :
    List CBlock → ConvSt × List GPart
  | [] => (st, [])
  | b :: bs =>
    let r1 := stepBlock includeThinking st b
    let r2 := runBlocks includeThinking r1.1 bs
    (r2.1, r1.2 ++ r2.2)

/-- The block sequence of a message: string content becomes a single text
block, any other non-list content a single stringified item. -/
def blocksOf (m : AMsg) : List CBlock :=
  match m.content with
  | .str s => [.text s]
  | .list bs => bs
  | .otherVal v => [.nonDict v]

/-- Reset the per-turn signature state at the start of a message. -/
def freshTurn (st : ConvSt) : ConvSt :=
  { table := st.table, turn := { pending := none, thinkingSeen := false } }

/-- Convert one client message: per-turn state resets, the table carries
over; messages whose converted parts are empty are dropped. -/
def convertMessage (includeThinking : Bool) (st : ConvSt) (m : AMsg) :
    ConvSt × Option GContent :=
  let r := runBlocks includeThinking (freshTurn st) (blocksOf m)
  (r.1,
   if r.2.isEmpty then none
   else some { role := if m.role == "assistant" then "model" else "user",
               parts := r.2 })

/-- Convert messages left to right, threading the correlation table. -/
def convertMessagesGo (includeThinking : Bool) (st : ConvSt) :
    List AMsg → List GContent
  | [] => []
  | m :: ms =>
    let r := convertMessage includeThinking st m
    match r.2 with
    | some c => c :: convertMessagesGo includeThinking r.1 ms
    | none => convertMessagesGo includeThinking r.1 ms

/-- The initial converter state: empty table, fresh turn. -/
def initConvSt : ConvSt := { table := [], turn := { pending := none, thinkingSeen := false } }

/-- Modelled from the spec: `convert_messages_to_contents` of the absent
`src/anthropic_converter.py` (spec §4.3). -/
def convert_messages_to_contents (msgs : List AMsg)
    (includeThinking : Bool := false) : List GContent :=
  convertMessagesGo includeThinking initConvSt msgs

/-- All parts of a converted message list, in order. -/
def allParts (cs : List GContent) : List GPart :=
  cs.flatMap GContent.parts

/-- The thought-signature fields of the functionCall parts, in order. -/
def functionCallSigs (cs : List GContent) : List (Option String) :=
  (allParts cs).filterMap fun p =>
    match p with
    | .functionCall _ _ _ sig => some sig
    | _ => none

/-- The correlation-table contents after scanning a block list (pure
characterization of the fold's table component). -/
def tableOf (t0 : List (String × String)) : List CBlock → List (String × String)
  | [] => t0
  | .toolUse id name _ :: bs => tableOf ((id, name) :: t0) bs
  | _ :: bs => tableOf t0 bs

/-- All blocks of a message list, in scan order. -/
def flatBlocks (msgs : List AMsg) : List CBlock :=
  msgs.flatMap blocksOf

/-- The converter state after a list of messages. -/
def stateAfterMsgs (includeThinking : Bool) (st : ConvSt) : List AMsg → ConvSt
  | [] => st
  | m :: ms => stateAfterMsgs includeThinking (convertMessage includeThinking st m).1 ms

/-- Whether a block is a tool_use with the given id. -/
def isToolUseWithId (X : String) : CBlock → Bool
  | .toolUse id _ _ => id == X
  | _ => false

/-- Whether a block, if it is a tool_use with id `X`, carries name `N`. -/
def toolUseNameOk (X N : String) : CBlock → Bool
  | .toolUse id nm _ => !(id == X) || (nm == N)
  | _ => true

/-- `runBlocks` splits over appended block lists. -/
theorem runBlocks_append (inc : Bool) (st : ConvSt) (xs ys : List CBlock) :
    runBlocks inc st (xs ++ ys) =
      ((runBlocks inc (runBlocks inc st xs).1 ys).1,
       (runBlocks inc st xs).2 ++ (runBlocks inc (runBlocks inc st xs).1 ys).2) := by
  induction xs generalizing st with
  | nil => simp [runBlocks]
  | cons b xs ih => simp [runBlocks, ih]

/-- The table component of the block fold is `tableOf`. -/
theorem runBlocks_table (inc : Bool) (st : ConvSt) (bs : List CBlock) :
    (runBlocks inc st bs).1.table = tableOf st.table bs := by
  induction bs generalizing st with
  | nil => rfl
  | cons b bs ih =>
    cases b with
    | text s => simp [runBlocks, stepBlock, tableOf, ih]
    | thinking t sig => simp [runBlocks, stepBlock, tableOf, ih]
    | redactedThinking d sig =>
      cases h : captureSignature sig with
      | none => simp [runBlocks, stepBlock, h, tableOf, ih]
      | some sg => simp [runBlocks, stepBlock, h, tableOf, ih]
    | toolUse id name input => simp [runBlocks, stepBlock, tableOf, ih]
    | toolResult id nm cnt => simp [runBlocks, stepBlock, tableOf, ih]
    | other tag payload => simp [runBlocks, stepBlock, tableOf, ih]
    | nonDict v => simp [runBlocks, stepBlock, tableOf, ih]

/-- `tableOf` splits over appended block lists. -/
theorem tableOf_append (t0 : List (String × String)) (xs ys : List CBlock) :
    tableOf t0 (xs ++ ys) = tableOf (tableOf t0 xs) ys := by
  induction xs generalizing t0 with
  | nil => rfl
  | cons b xs ih => cases b <;> simp [tableOf, ih]

/-- The table of the state after a list of messages. -/
theorem stateAfterMsgs_table (inc : Bool) (st : ConvSt) (msgs : List AMsg) :
    (stateAfterMsgs inc st msgs).table = tableOf st.table (flatBlocks msgs) := by
  induction msgs generalizing st with
  | nil => simp [stateAfterMsgs, flatBlocks, tableOf]
  | cons m ms ih =>
    have hm : (convertMessage inc st m).1.table = tableOf st.table (blocksOf m) := by
      simpa [convertMessage, freshTurn] using
        runBlocks_table inc (freshTurn st) (blocksOf m)
    simp [stateAfterMsgs, ih, hm, flatBlocks, tableOf_append]

/-- Converted message lists split over appends, with the table carried
across the boundary. -/
theorem convertMessagesGo_append (inc : Bool) (st : ConvSt) (as bs : List AMsg) :
    convertMessagesGo inc st (as ++ bs) =
      convertMessagesGo inc st as ++
      convertMessagesGo inc (stateAfterMsgs inc st as) bs := by
  induction as generalizing st with
  | nil => simp [convertMessagesGo, stateAfterMsgs]
  | cons m as ih =>
    simp only [List.cons_append, convertMessagesGo, stateAfterMsgs]
    cases h : (convertMessage inc st m).2 with
    | some c => simp [h, ih]
    | none => simp [h, ih]

/-- `allParts` distributes over appended content lists. -/
theorem allParts_append (a b : List GContent) :
    allParts (a ++ b) = allParts a ++ allParts b := by
  simp [allParts]

/-- If a prefix's X-entries all carry name `N` and the starting table
already resolves `X` to `N`, the table after the prefix still does. -/
theorem lookup_tableOf_of_all (t0 : List (String × String)) (bs : List CBlock)
    (X N : String) (hall : ∀ b ∈ bs, toolUseNameOk X N b = true)
    (h0 : lookupStr t0 X = some N) :
    lookupStr (tableOf t0 bs) X = some N := by
  induction bs generalizing t0 with
  | nil => exact h0
  | cons b bs ih =>
    have htl : ∀ b ∈ bs, toolUseNameOk X N b = true :=
      fun b hb => hall b (List.mem_cons_of_mem _ hb)
    cases b with
    | toolUse id nm inp =>
      by_cases hid : (id == X) = true
      · have hok := hall _ (List.mem_cons_self _ _)
        simp [toolUseNameOk, hid] at hok
        simp only [tableOf]
        exact ih _ htl (by simp [lookupStr, hid, hok])
      · have hid' : (id == X) = false := by simpa using hid
        simp only [tableOf]
        exact ih _ htl (by simp [lookupStr, hid', h0])
    | text s => exact ih _ htl h0
    | thinking t sig => exact ih _ htl h0
    | redactedThinking d sig => exact ih _ htl h0
    | toolResult id nm cnt => exact ih _ htl h0
    | other tag payload => exact ih _ htl h0
    | nonDict v => exact ih _ htl h0

/-- If a prefix contains a tool_use with id `X` and every X-entry in it
carries name `N`, the table after the prefix resolves `X` to `N`. -/
theorem lookup_tableOf_of_any (t0 : List (String × String)) (bs : List CBlock)
    (X N : String) (hall : ∀ b ∈ bs, toolUseNameOk X N b = true)
    (hex : bs.any (isToolUseWithId X) = true) :
    lookupStr (tableOf t0 bs) X = some N := by
  induction bs generalizing t0 with
  | nil => simp at hex
  | cons b bs ih =>
    have htl : ∀ b ∈ bs, toolUseNameOk X N b = true :=
      fun b hb => hall b (List.mem_cons_of_mem _ hb)
    cases b with
    | toolUse id nm inp =>
      by_cases hid : (id == X) = true
      · have hok := hall _ (List.mem_cons_self _ _)
        simp [toolUseNameOk, hid] at hok
        simp only [tableOf]
        exact lookup_tableOf_of_all _ _ _ _ htl (by simp [lookupStr, hid, hok])
      · have hid' : (id == X) = false := by simpa using hid
        have hex' : bs.any (isToolUseWithId X) = true := by
          simpa [isToolUseWithId, hid'] using hex
        simp only [tableOf]
        exact ih _ htl hex'
    | text s =>
      exact ih _ htl (by simpa [isToolUseWithId] using hex)
    | thinking t sig =>
      exact ih _ htl (by simpa [isToolUseWithId] using hex)
    | redactedThinking d sig =>
      exact ih _ htl (by simpa [isToolUseWithId] using hex)
    | toolResult id nm cnt =>
      exact ih _ htl (by simpa [isToolUseWithId] using hex)
    | other tag payload =>
      exact ih _ htl (by simpa [isToolUseWithId] using hex)
    | nonDict v =>
      exact ih _ htl (by simpa [isToolUseWithId] using hex)

/-- If a prefix contains no tool_use with id `X` and the starting table
has no entry for `X`, the table after the prefix has none either. -/
theorem lookup_tableOf_of_none (t0 : List (String × String)) (bs : List CBlock)
    (X : String) (hnone : bs.any (isToolUseWithId X) = false)
    (h0 : lookupStr t0 X = none) :
    lookupStr (tableOf t0 bs) X = none := by
  induction bs generalizing t0 with
  | nil => exact h0
  | cons b bs ih =>
    cases b with
    | toolUse id nm inp =>
      have hid : (id == X) = false := by
        by_contra hc
        simp only [Bool.not_eq_false] at hc
        simp [isToolUseWithId, hc] at hnone
      have htl : bs.any (isToolUseWithId X) = false := by
        simpa [isToolUseWithId, hid] using hnone
      simp only [tableOf]
      exact ih _ htl (by simp [lookupStr, hid, h0])
    | text s => exact ih _ (by simpa [isToolUseWithId] using hnone) h0
    | thinking t sig => exact ih _ (by simpa [isToolUseWithId] using hnone) h0
    | redactedThinking d sig => exact ih _ (by simpa [isToolUseWithId] using hnone) h0
    | toolResult id nm cnt => exact ih _ (by simpa [isToolUseWithId] using hnone) h0
    | other tag payload => exact ih _ (by simpa [isToolUseWithId] using hnone) h0
    | nonDict v => exact ih _ (by simpa [isToolUseWithId] using hnone) h0

/-- The part emitted for a tool_result block with the correct table: any
message list that contains a `tool_result` block (at an arbitrary
position) yields a functionResponse whose name is resolved against the
correlation table built from everything scanned before it. -/
theorem toolResult_part_emitted (inc : Bool) (msgsPre msgsPost : List AMsg)
    (role : String) (bsPre bsPost : List CBlock) (X : String)
    (nmOpt : Option String) (cnt : JVal) :
    GPart.functionResponse X
      (resolveResponseName (tableOf [] (flatBlocks msgsPre ++ bsPre)) nmOpt X)
      (extract_tool_result_output cnt) ∈
    allParts (convert_messages_to_contents
      (msgsPre ++ ⟨role, .list (bsPre ++ .toolResult X nmOpt cnt :: bsPost)⟩ :: msgsPost)
      inc) := by
  set mid : AMsg := ⟨role, .list (bsPre ++ .toolResult X nmOpt cnt :: bsPost)⟩ with hmid
  rw [convert_messages_to_contents, convertMessagesGo_append, allParts_append]
  apply List.mem_append_right
  set stM := stateAfterMsgs inc initConvSt msgsPre with hstM
  have htbl : stM.table = tableOf [] (flatBlocks msgsPre) := by
    simpa [initConvSt] using stateAfterMsgs_table inc initConvSt msgsPre
  have hrun := runBlocks_append inc (freshTurn stM) bsPre
    (CBlock.toolResult X nmOpt cnt :: bsPost)
  have hst1 : (runBlocks inc (freshTurn stM) bsPre).1.table =
      tableOf [] (flatBlocks msgsPre ++ bsPre) := by
    rw [runBlocks_table, tableOf_append]
    simp [freshTurn, htbl]
  have hpart : (runBlocks inc (freshTurn stM) (blocksOf mid)).2 =
      (runBlocks inc (freshTurn stM) bsPre).2 ++
      GPart.functionResponse X
        (resolveResponseName (tableOf [] (flatBlocks msgsPre ++ bsPre)) nmOpt X)
        (extract_tool_result_output cnt) ::
      (runBlocks inc
        (stepBlock inc (runBlocks inc (freshTurn stM) bsPre).1
          (CBlock.toolResult X nmOpt cnt)).1 bsPost).2 := by
    show (runBlocks inc (freshTurn stM)
        (bsPre ++ CBlock.toolResult X nmOpt cnt :: bsPost)).2 = _
    rw [hrun]
    simp only [runBlocks, stepBlock, hst1]
    simp
  simp only [convertMessagesGo, convertMessage]
  rw [hpart]
  simp [allParts]

/-- Whether a block is a thinking or redacted_thinking block. -/
def isThinkingBlock : CBlock → Bool
  | .thinking _ _ => true
  | .redactedThinking _ _ => true
  | _ => false

/-- Captured signatures are never the empty string. -/
theorem captureSignature_ne_empty (sig : Option String) :
    captureSignature sig ≠ some "" := by
  cases sig with
  | none => simp [captureSignature]
  | some s =>
    by_cases h : (s == "") = true
    · simp [captureSignature, h]
    · simp only [captureSignature, h, Bool.false_eq_true, if_false]
      intro hc
      injection hc with hc
      subst hc
      simp at h

/-- In a turn with no thinking block, every emitted functionCall carries
the sentinel signature. -/
theorem runBlocks_no_thinking_sentinel (inc : Bool) (st : ConvSt)
    (bs : List CBlock) (hb : bs.all (fun b => !isThinkingBlock b) = true)
    (hp : st.turn.pending = none) (hs : st.turn.thinkingSeen = false) :
    ∀ id nm args sig, GPart.functionCall id nm args sig ∈ (runBlocks inc st bs).2 →
      sig = some SKIP_THOUGHT_SIGNATURE := by
  induction bs generalizing st with
  | nil => intro id nm args sig h; simp [runBlocks] at h
  | cons b bs ih =>
    intro id nm args sig h
    have hbtl : bs.all (fun b => !isThinkingBlock b) = true := by
      simp only [List.all_cons, Bool.and_eq_true] at hb
      exact hb.2
    cases b with
    | text s =>
      simp only [runBlocks, stepBlock] at h
      rcases List.mem_append.1 h with h1 | h1
      · split at h1 <;> simp at h1
      · exact ih st hbtl hp hs id nm args sig h1
    | thinking t sig2 => simp [List.all_cons, isThinkingBlock] at hb
    | redactedThinking d sig2 => simp [List.all_cons, isThinkingBlock] at hb
    | toolUse id2 nm2 args2 =>
      simp only [runBlocks, stepBlock, hp, hs] at h
      rcases List.mem_append.1 h with h1 | h1
      · simp at h1
        exact h1.2.2.2
      · exact ih _ hbtl rfl (by simp [hs]) id nm args sig h1
    | toolResult id2 nm2 cnt =>
      simp only [runBlocks, stepBlock] at h
      rcases List.mem_append.1 h with h1 | h1
      · simp at h1
      · exact ih st hbtl hp hs id nm args sig h1
    | other tag payload =>
      simp only [runBlocks, stepBlock] at h
      rcases List.mem_append.1 h with h1 | h1
      · simp at h1
      · exact ih st hbtl hp hs id nm args sig h1
    | nonDict v =>
      simp only [runBlocks, stepBlock] at h
      rcases List.mem_append.1 h with h1 | h1
      · simp at h1
      · exact ih st hbtl hp hs id nm args sig h1

/-- No emitted functionCall ever carries an empty-string signature. -/
theorem runBlocks_sig_ne_empty (inc : Bool) (st : ConvSt) (bs : List CBlock)
    (hp : st.turn.pending ≠ some "") :
    ∀ id nm args, GPart.functionCall id nm args (some "") ∉ (runBlocks inc st bs).2 := by
  induction bs generalizing st with
  | nil => intro id nm args h; simp [runBlocks] at h
  | cons b bs ih =>
    intro id nm args h
    cases b with
    | text s =>
      simp only [runBlocks, stepBlock] at h
      rcases List.mem_append.1 h with h1 | h1
      · split at h1 <;> simp at h1
      · exact ih st hp id nm args h1
    | thinking t sig2 =>
      simp only [runBlocks, stepBlock] at h
      rcases List.mem_append.1 h with h1 | h1
      · split at h1 <;> simp at h1
      · exact ih _ (by simpa using captureSignature_ne_empty sig2) id nm args h1
    | redactedThinking d sig2 =>
      cases hc : captureSignature sig2 with
      | none =>
        simp only [runBlocks, stepBlock, hc] at h
        rcases List.mem_append.1 h with h1 | h1
        · simp at h1
        · exact ih st hp id nm args h1
      | some sg =>
        have hsg : sg ≠ "" := by
          intro hq
          exact captureSignature_ne_empty sig2 (by rw [hc, hq])
        simp only [runBlocks, stepBlock, hc] at h
        rcases List.mem_append.1 h with h1 | h1
        · split at h1 <;> simp at h1
        · refine ih _ ?_ id nm args h1
          simpa using hsg
    | toolUse id2 nm2 args2 =>
      simp only [runBlocks, stepBlock] at h
      rcases List.mem_append.1 h with h1 | h1
      · simp at h1
        obtain ⟨-, -, -, hsig⟩ := h1
        cases hpend : st.turn.pending with
        | some sg =>
          rw [hpend] at hsig
          simp at hsig
          exact hp (by rw [hpend, hsig])
        | none =>
          rw [hpend] at hsig
          by_cases hseen : st.turn.thinkingSeen = true
          · simp [hseen] at hsig
          · have hseen' : st.turn.thinkingSeen = false := by simpa using hseen
            simp [hseen'] at hsig
            exact absurd hsig.symm (by simp [SKIP_THOUGHT_SIGNATURE])
      · exact ih _ (by simp) id nm args h1
    | toolResult id2 nm2 cnt =>
      simp only [runBlocks, stepBlock] at h
      rcases List.mem_append.1 h with h1 | h1
      · simp at h1
      · exact ih st hp id nm args h1
    | other tag payload =>
      simp only [runBlocks, stepBlock] at h
      rcases List.mem_append.1 h with h1 | h1
      · simp at h1
      · exact ih st hp id nm args h1
    | nonDict v =>
      simp only [runBlocks, stepBlock] at h
      rcases List.mem_append.1 h with h1 | h1
      · simp at h1
      · exact ih st hp id nm args h1

/-- Once the pending signature is consumed (but thinking was seen), the
remaining functionCalls of the turn carry no signature field at all. -/
theorem runBlocks_consumed_calls (inc : Bool) (st : ConvSt)
    (calls : List (String × String × JVal))
    (hp : st.turn.pending = none) (hs : st.turn.thinkingSeen = true) :
    (runBlocks inc st (calls.map fun c => CBlock.toolUse c.1 c.2.1 c.2.2)).2 =
      calls.map fun c => GPart.functionCall c.1 c.2.1 c.2.2 none := by
  induction calls generalizing st with
  | nil => simp [runBlocks]
  | cons c cs ih =>
    have step := ih ⟨(c.1, c.2.1) :: st.table, ⟨none, true⟩⟩ rfl rfl
    simp only [List.map_cons, runBlocks, stepBlock, hp, hs]
    simp [step]

/-- Membership in all parts of a converted message list decomposes into
membership in some message's converted parts. -/
theorem mem_allParts_go (inc : Bool) (st : ConvSt) (msgs : List AMsg)
    (p : GPart) (hp : p ∈ allParts (convertMessagesGo inc st msgs)) :
    ∃ m ∈ msgs, ∃ st2, p ∈ (runBlocks inc (freshTurn st2) (blocksOf m)).2 := by
  induction msgs generalizing st with
  | nil => simp [convertMessagesGo, allParts] at hp
  | cons m ms ih =>
    simp only [convertMessagesGo] at hp
    cases hm : (convertMessage inc st m).2 with
    | some c =>
      rw [hm] at hp
      simp only [allParts, List.flatMap_cons] at hp
      rcases List.mem_append.1 hp with h1 | h1
      · refine ⟨m, by simp, st, ?_⟩
        have hc : c.parts = (runBlocks inc (freshTurn st) (blocksOf m)).2 := by
          simp only [convertMessage] at hm
          split at hm
          · simp at hm
          · injection hm with hm
            rw [← hm]
        rw [hc] at h1
        exact h1
      · obtain ⟨m2, hm2, st2, h2⟩ := ih _ h1
        exact ⟨m2, by simp [hm2], st2, h2⟩
    | none =>
      rw [hm] at hp
      obtain ⟨m2, hm2, st2, h2⟩ := ih _ hp
      exact ⟨m2, by simp [hm2], st2, h2⟩

/-! ### Generation config derivation (`build_generation_config`)

Modelled from the spec: `src/anthropic_converter.py` is absent; §4.3 of
the spec describes generation-config derivation (disabling forms, the
thinking-history compatibility check, and budget clamping), pinned by
`tests/test_anthropic_converter.py` (`TestBuildGenerationConfig`). -/

/-- The client's thinking option after parsing: a disabling form, or an
enabling form with an optional requested budget. -/
inductive ThinkingOption where
  | disabled
  | enabled (budget : Option Int)
deriving Repr, DecidableEq

/-- The default thinking budget used when none is requested. -/
def DEFAULT_THINKING_BUDGET : Int := 8192

/-- The upstream thinking configuration. -/
structure ThinkingConfig where
  includeThoughts : Bool
  thinkingBudget : Option Int
deriving Repr, DecidableEq

/-- The upstream generation configuration (the part the claims concern). -/
structure GenerationConfig where
  thinkingConfig : Option ThinkingConfig
deriving Repr, DecidableEq

/-- The type tag of a content block when it is dict-shaped (`none` for a
non-dict item). -/
def dictTag : CBlock → Option String
  | .text _ => some "text"
  | .thinking _ _ => some "thinking"
  | .redactedThinking _ _ => some "redacted_thinking"
  | .toolUse _ _ _ => some "tool_use"
  | .toolResult _ _ _ => some "tool_result"
  | .other tag _ => some tag
  | .nonDict _ => none

/-- The last assistant message of a request, if any. -/
def lastAssistantTurn (msgs : List AMsg) : Option AMsg :=
  msgs.reverse.find? fun m => m.role == "assistant"

/-- The type tag of the first content block of a message (`none` when the
content is not a list, is empty, or starts with a non-dict item). -/
def firstBlockTag (m : AMsg) : Option String :=
  match m.content with
  | .list (b :: _) => dictTag b
  | _ => none

/-- Whether the history permits requesting thinking: the last assistant
turn's first block must be absent, non-dict, or a thinking /
redacted_thinking block (spec §4.3). -/
def historyCompatible (msgs : List AMsg) : Bool :=
  match lastAssistantTurn msgs with
  | none => true
  | some m =>
    match firstBlockTag m with
    | none => true
    | some tag => tag == "thinking" || tag == "redacted_thinking"

/-- Modelled from the spec: `build_generation_config` of the absent
`src/anthropic_converter.py` (spec §4.3).  Returns the generation config
and whether thinking is requested for this call. -/
def build_generation_config (thinking : ThinkingOption)
    (maxTokens : Option Int) (msgs : List AMsg) : GenerationConfig × Bool :=
  match thinking with
  | .disabled => (⟨some ⟨false, none⟩⟩, false)
  | .enabled budget? =>
    if historyCompatible msgs then
      let b := budget?.getD DEFAULT_THINKING_BUDGET
      match maxTokens with
      | some m =>
        if b ≥ m then
          if m - 1 ≤ 0 then (⟨none⟩, false)
          else (⟨some ⟨true, some (m - 1)⟩⟩, true)
        else (⟨some ⟨true, some b⟩⟩, true)
      | none => (⟨some ⟨true, some b⟩⟩, true)
    else (⟨none⟩, false)

/-- The claim's wording of the thinking-compatibility condition: the last
assistant turn's first content block is absent, the content is empty, the
first block is not a dict, or it is a dict tagged thinking /
redacted_thinking. -/
def ThinkingPermittedClaim (msgs : List AMsg) : Prop :=
  match lastAssistantTurn msgs with
  | none => True
  | some m =>
    match m.content with
    | .str _ => True
    | .otherVal _ => True
    | .list [] => True
    | .list (b :: _) =>
      dictTag b = none ∨ dictTag b = some "thinking" ∨
      dictTag b = some "redacted_thinking"

/-- The model's compatibility check and the claim's wording agree. -/
theorem historyCompatible_iff (msgs : List AMsg) :
    historyCompatible msgs = true ↔ ThinkingPermittedClaim msgs := by
  unfold historyCompatible ThinkingPermittedClaim
  cases hl : lastAssistantTurn msgs with
  | none => simp
  | some m =>
    cases hc : m.content with
    | str s => simp [firstBlockTag, hc]
    | otherVal v => simp [firstBlockTag, hc]
    | list bs =>
      cases bs with
      | nil => simp [firstBlockTag, hc]
      | cons b rest =>
        simp only [firstBlockTag, hc]
        cases ht : dictTag b with
        | none => simp
        | some tag =>
          constructor
          · intro h
            simp only [Bool.or_eq_true, beq_iff_eq] at h
            rcases h with h | h <;> simp [h]
          · intro h
            rcases h with h | h | h
            · simp at h
            · injection h with h
              simp [h]
            · injection h with h
              simp [h]

/-! ### Response Converter

Modelled from the spec: `src/antigravity_anthropic_router.py` is absent;
§4.4 of the spec describes `_convert_antigravity_response_to_anthropic_message`,
pinned by `tests/test_thinking_handling.py` and
`tests/test_router_helpers.py`. -/

/-- An upstream response part (one element of
`response.candidates[0].content.parts`). `sigOnly` is a part carrying
only a `thoughtSignature`; `nonDict` is a malformed, non-dict part. -/
inductive RPart where
  | text (s : String)
  | thought (s : String) (sig : Option String)
  | sigOnly (sig : String)
  | functionCall (id : Option String) (name : String) (args : JVal)
  | inlineData (mime data : String)
  | nonDict (v : JVal)
deriving Repr

/-- An Anthropic-format response content block. -/
inductive ABlock where
  | text (s : String)
  | thinking (t : String) (signature : Option String)
  | toolUse (id name : String) (input : JVal)
  | image (mediaType data : String)
deriving Repr

/-- Wrap accumulated thinking text in the fixed thinking-to-text markers. -/
def wrapThinking (buf : String) : String :=
  "<assistant_thinking>\n" ++ buf ++ "\n</assistant_thinking>"

/-- Append a thinking fragment to the running thinking buffer. -/
def bufAppend (buf s : String) : String :=
  if s == "" then buf
  else if buf == "" then s
  else buf ++ "\n" ++ s

/-- Flush a non-empty thinking buffer as a single wrapped text block. -/
def finishBlocks (buf : String) : List ABlock :=
  if buf == "" then [] else [.text (wrapThinking buf)]

/-- Convert one upstream part into Anthropic blocks, threading the
thinking-to-text buffer.  A non-empty buffer is flushed before any
non-thinking block; a text part absorbs it into the same text block. -/
def stepRespPart (thinkingEnabled thinkingToText : Bool) (buf : String) :
    RPart → String × List ABlock
  | .text s =>
    if buf == "" then ("", [.text s])
    else ("", [.text (wrapThinking buf ++ "\n\n" ++ s)])
  | .thought s sig =>
    if thinkingEnabled then (buf, [.thinking s sig])
    else if thinkingToText then (bufAppend buf s, [])
    else (buf, [])
  | .sigOnly _ => (buf, [])
  | .functionCall idOpt name args =>
    ("", finishBlocks buf ++
      [.toolUse (idOpt.getD ("toolu_" ++ name)) name
        (remove_nulls_for_tool_input args)])
  | .inlineData mime data =>
    ("", finishBlocks buf ++ [.image mime data])
  | .nonDict _ => (buf, [])

/-- Convert a list of upstream parts, threading the buffer. -/
def runRespParts (thinkingEnabled thinkingToText : Bool) (buf : String) :
    List RPart → String × List ABlock
  | [] => (buf, [])
  | p :: ps =>
    let r1 := stepRespPart thinkingEnabled thinkingToText buf p
    let r2 := runRespParts thinkingEnabled thinkingToText r1.1 ps
    (r2.1, r1.2 ++ r2.2)

/-- The content blocks of a converted response: all parts, then a final
flush of any remaining thinking buffer. -/
def convertRespParts (thinkingEnabled thinkingToText : Bool)
    (parts : List RPart) : List ABlock :=
  let r := runRespParts thinkingEnabled thinkingToText "" parts
  r.2 ++ finishBlocks r.1

/-- Map an upstream finish reason to an Anthropic stop reason. -/
def mapFinishReason : Option String → String
  | some "MAX_TOKENS" => "max_tokens"
  | _ => "end_turn"

/-- Whether any produced content block is a tool_use block. -/
def hasToolUseBlock (blocks : List ABlock) : Bool :=
  blocks.any fun b =>
    match b with
    | .toolUse _ _ _ => true
    | _ => false

/-- A (simplified) upstream response: first candidate's parts and finish
reason. -/
structure UpResponse where
  parts : List RPart
  finishReason : Option String
deriving Repr

/-- An Anthropic-format response message (the fields the claims concern). -/
structure AMessage where
  content : List ABlock
  stop_reason : String
deriving Repr

/-- Modelled from the spec: `_convert_antigravity_response_to_anthropic_message`
of the absent `src/antigravity_anthropic_router.py` (spec §4.4). -/
def convert_antigravity_response_to_anthropic_message (resp : UpResponse)
    (thinkingEnabled thinkingToText : Bool) : AMessage :=
  let content := convertRespParts thinkingEnabled thinkingToText resp.parts
  { content := content,
    stop_reason :=
      if hasToolUseBlock content then "tool_use"
      else mapFinishReason resp.finishReason }

/-! ### Streaming Translator

Modelled from the spec: `src/anthropic_streaming.py` is absent; §4.5 of
the spec describes the streaming state machine
(`antigravity_sse_to_anthropic_sse` and `_StreamingState`), pinned by
`tests/test_streaming_thinking.py`. -/

/-- An Anthropic SSE event, at the level of detail the claims concern. -/
inductive SEvent where
  | messageStart
  | contentBlockStart (index : Int) (btype : String)
  | contentBlockDelta (index : Int) (dtype : String) (payload : String)
  | contentBlockStop (index : Int)
  | messageDelta (stopReason : String)
  | messageStop
  | errorEvent (msg : String)
deriving Repr, DecidableEq

/-- The per-stream mutable state of `_StreamingState`. -/
structure StreamingState where
  message_id : String
  model : String
  current_block_type : Option String
  current_block_index : Int
  current_thinking_signature : Option String
  thinking_buffer : String
  has_tool_use : Bool
  finish_reason : Option String
deriving Repr

/-- A fresh streaming state: no open block, index `-1`, no tool use seen. -/
def initStreamingState (message_id model : String) : StreamingState :=
  ⟨message_id, model, none, -1, none, "", false, none⟩

/-- Close the open content block, if any: emits a `content_block_stop`
for it, or returns `none` leaving the state unchanged. -/
def close_block_if_open (st : StreamingState) : StreamingState × Option SEvent :=
  match st.current_block_type with
  | none => (st, none)
  | some _ =>
    ({ st with current_block_type := none },
     some (.contentBlockStop st.current_block_index))

/-- Open a new content block of the given type at the next index. -/
def open_block (st : StreamingState) (btype : String) : StreamingState × SEvent :=
  ({ st with current_block_type := some btype,
             current_block_index := st.current_block_index + 1 },
   .contentBlockStart (st.current_block_index + 1) btype)

/-- Open a text block (`_StreamingState.open_text_block`). -/
def open_text_block (st : StreamingState) : StreamingState × SEvent :=
  open_block st "text"

/-- Open a thinking block, recording its signature
(`_StreamingState.open_thinking_block`). -/
def open_thinking_block (st : StreamingState) (sig : Option String) :
    StreamingState × SEvent :=
  let r := open_block st "thinking"
  ({ r.1 with current_thinking_signature := sig }, r.2)

/-- Ensure a block of the given type is open: close any differently-typed
open block and open a new one. -/
def ensureBlock (st : StreamingState) (btype : String) :
    StreamingState × List SEvent :=
  if st.current_block_type == some btype then (st, [])
  else
    let c := close_block_if_open st
    let o := open_block c.1 btype
    (o.1, c.2.toList ++ [o.2])

/-- Flush a non-empty thinking-to-text buffer as a wrapped text delta on
an (ensured open) text block. -/
def flushThinkingBuffer (st : StreamingState) : StreamingState × List SEvent :=
  if st.thinking_buffer == "" then (st, [])
  else
    let e := ensureBlock st "text"
    ({ e.1 with thinking_buffer := "" },
     e.2 ++ [.contentBlockDelta e.1.current_block_index "text_delta"
               (wrapThinking st.thinking_buffer)])

/-- Translate one upstream part into SSE events (spec §4.5, mirroring the
response converter's classification). -/
def streamPart (thinkingEnabled thinkingToText : Bool) (st : StreamingState) :
    RPart → StreamingState × List SEvent
  | .text s =>
    if is_non_whitespace_text s then
      let f := flushThinkingBuffer st
      let e := ensureBlock f.1 "text"
      (e.1, f.2 ++ e.2 ++ [.contentBlockDelta e.1.current_block_index "text_delta" s])
    else (st, [])
  | .thought s _ =>
    if thinkingEnabled then
      let e := ensureBlock st "thinking"
      (e.1, e.2 ++ [.contentBlockDelta e.1.current_block_index "thinking_delta" s])
    else if thinkingToText then
      ({ st with thinking_buffer := bufAppend st.thinking_buffer s }, [])
    else (st, [])
  | .sigOnly sig =>
    if thinkingEnabled && (st.current_block_type == some "thinking") then
      (st, [.contentBlockDelta st.current_block_index "signature_delta" sig])
    else (st, [])
  | .functionCall _ _ args =>
    let f := flushThinkingBuffer st
    let c := close_block_if_open f.1
    let o := open_block c.1 "tool_use"
    ({ o.1 with has_tool_use := true },
     f.2 ++ c.2.toList ++
       [o.2, .contentBlockDelta o.1.current_block_index "input_json_delta"
               (remove_nulls_for_tool_input args).render])
  | .inlineData _ _ =>
    let f := flushThinkingBuffer st
    let c := close_block_if_open f.1
    let o := open_block c.1 "image"
    let cl := close_block_if_open o.1
    (cl.1, f.2 ++ c.2.toList ++ [o.2] ++ cl.2.toList)
  | .nonDict _ => (st, [])

/-- Translate a chunk's parts in order. -/
def streamParts (thinkingEnabled thinkingToText : Bool) (st : StreamingState) :
    List RPart → StreamingState × List SEvent
  | [] => (st, [])
  | p :: ps =>
    let r1 := streamPart thinkingEnabled thinkingToText st p
    let r2 := streamParts thinkingEnabled thinkingToText r1.1 ps
    (r2.1, r1.2 ++ r2.2)

/-- One parsed upstream chunk: parts plus an optional finish reason. -/
structure Chunk where
  parts : List RPart
  finishReason : Option String
deriving Repr

/-- Process one upstream chunk, recording a finish reason when present. -/
def processChunk (thinkingEnabled thinkingToText : Bool)
    (st : StreamingState) (c : Chunk) : StreamingState × List SEvent :=
  let r := streamParts thinkingEnabled thinkingToText st c.parts
  ({ r.1 with finish_reason :=
      match c.finishReason with
      | some f => some f
      | none => r.1.finish_reason }, r.2)

/-- The final stop reason: any tool use overrides the mapped finish
reason (same rule as the response converter). -/
def computeStopReason (st : StreamingState) : String :=
  if st.has_tool_use then "tool_use" else mapFinishReason st.finish_reason

/-- Terminal events: flush the thinking buffer, close any open block,
then `message_delta` with the resolved stop reason and `message_stop`. -/
def finalizeEvents (st : StreamingState) : List SEvent :=
  let f := flushThinkingBuffer st
  let c := close_block_if_open f.1
  f.2 ++ c.2.toList ++ [.messageDelta (computeStopReason c.1), .messageStop]

/-- Error path: close any open block and emit a terminal error event;
no further upstream input is consulted. -/
def errorEvents (st : StreamingState) (msg : String) : List SEvent :=
  (close_block_if_open st).2.toList ++ [.errorEvent msg]

/-- One upstream SSE line, after parsing: a parsed data chunk, a
malformed or non-data line (skipped), the literal stream terminator, or
an exception raised by the upstream iterator. -/
inductive UpLine where
  | chunk (c : Chunk)
  | malformed
  | done
  | exn (msg : String)
deriving Repr

/-- Consume upstream lines, emitting SSE events: malformed lines are
skipped, the terminator and stream exhaustion finalize, an exception
yields a terminal error event, and a chunk carrying a finish reason
finalizes immediately. -/
def runLines (thinkingEnabled thinkingToText : Bool) (st : StreamingState) :
    List UpLine → List SEvent
  | [] => finalizeEvents st
  | .exn msg :: _ => errorEvents st msg
  | .done :: _ => finalizeEvents st
  | .malformed :: rest => runLines thinkingEnabled thinkingToText st rest
  | .chunk c :: rest =>
    let r := processChunk thinkingEnabled thinkingToText st c
    if c.finishReason.isSome then r.2 ++ finalizeEvents r.1
    else r.2 ++ runLines thinkingEnabled thinkingToText r.1 rest

/-- Modelled from the spec: `antigravity_sse_to_anthropic_sse` of the
absent `src/anthropic_streaming.py` (spec §4.5).  The very first emitted
event is always `message_start`. -/
def antigravity_sse_to_anthropic_sse (thinkingEnabled thinkingToText : Bool)
    (message_id model : String) (lines : List UpLine) : List SEvent :=
  .messageStart :: runLines thinkingEnabled thinkingToText
    (initStreamingState message_id model) lines

/-- Whether an event is a `content_block_start`. -/
def isStart : SEvent → Bool
  | .contentBlockStart _ _ => true
  | _ => false

/-- Whether an event is a `content_block_stop`. -/
def isStop : SEvent → Bool
  | .contentBlockStop _ => true
  | _ => false

/-- Whether an event is an `error` event. -/
def isErrorEvent : SEvent → Bool
  | .errorEvent _ => true
  | _ => false

/-- The number of open blocks in a state (zero or one). -/
def openCount (st : StreamingState) : Nat :=
  if st.current_block_type.isSome then 1 else 0

/-- The balance relation for a machine step: stops emitted plus blocks
still open afterwards equals starts emitted plus blocks open before. -/
def balancedEvents (st st' : StreamingState) (evs : List SEvent) : Prop :=
  evs.countP isStop + openCount st' = evs.countP isStart + openCount st

/-- Composition of balanced steps. -/
theorem balancedEvents_comp {st st1 st2 : StreamingState} {e1 e2 : List SEvent}
    (h1 : balancedEvents st st1 e1) (h2 : balancedEvents st1 st2 e2) :
    balancedEvents st st2 (e1 ++ e2) := by
  unfold balancedEvents at *
  simp only [List.countP_append]
  omega

/-- Closing is balanced. -/
theorem close_balanced (st : StreamingState) :
    balancedEvents st (close_block_if_open st).1 (close_block_if_open st).2.toList := by
  unfold balancedEvents close_block_if_open openCount
  cases h : st.current_block_type <;> simp [h, isStop, isStart, List.countP_cons]

/-- After closing, no block is open. -/
theorem close_block_type (st : StreamingState) :
    (close_block_if_open st).1.current_block_type = none := by
  unfold close_block_if_open
  cases h : st.current_block_type with
  | none => simpa using h
  | some b => simp

/-- A step that emits no starts and no stops and preserves the open
count is balanced. -/
theorem balancedEvents_of_neutral {st st' : StreamingState} {evs : List SEvent}
    (h1 : evs.countP isStop = 0) (h2 : evs.countP isStart = 0)
    (h3 : openCount st' = openCount st) : balancedEvents st st' evs := by
  unfold balancedEvents
  omega

/-- Opening from a closed state is balanced. -/
theorem open_balanced (st : StreamingState) (btype : String)
    (h : st.current_block_type = none) :
    balancedEvents st (open_block st btype).1 [(open_block st btype).2] := by
  unfold balancedEvents open_block openCount
  simp [h, isStop, isStart, List.countP_cons]

/-- Ensuring a block type is balanced. -/
theorem ensure_balanced (st : StreamingState) (btype : String) :
    balancedEvents st (ensureBlock st btype).1 (ensureBlock st btype).2 := by
  unfold ensureBlock
  by_cases h : (st.current_block_type == some btype) = true
  · simp only [h, if_true]
    unfold balancedEvents
    simp
  · simp only [h, Bool.false_eq_true, if_false]
    exact balancedEvents_comp (close_balanced st)
      (open_balanced _ btype (close_block_type st))

/-- Flushing the thinking buffer is balanced. -/
theorem flush_balanced (st : StreamingState) :
    balancedEvents st (flushThinkingBuffer st).1 (flushThinkingBuffer st).2 := by
  by_cases h : (st.thinking_buffer == "") = true
  · simp only [flushThinkingBuffer, h, if_true]
    exact balancedEvents_of_neutral rfl rfl rfl
  · have he := ensure_balanced st "text"
    have hd : balancedEvents (ensureBlock st "text").1
        { (ensureBlock st "text").1 with thinking_buffer := "" }
        [.contentBlockDelta (ensureBlock st "text").1.current_block_index
           "text_delta" (wrapThinking st.thinking_buffer)] :=
      balancedEvents_of_neutral rfl rfl rfl
    have := balancedEvents_comp he hd
    simpa [flushThinkingBuffer, h] using this

/-- A state update that keeps the block type keeps the open count. -/
theorem balancedEvents_congr {st st1 st1' : StreamingState} {e e' : List SEvent}
    (h : balancedEvents st st1 e) (hst : openCount st1' = openCount st1)
    (he : e' = e) : balancedEvents st st1' e' := by
  unfold balancedEvents at *
  rw [he, hst]
  exact h

/-- Translating one part is balanced. -/
theorem streamPart_balanced (te tt : Bool) (st : StreamingState) (p : RPart) :
    balancedEvents st (streamPart te tt st p).1 (streamPart te tt st p).2 := by
  cases p with
  | text s =>
    by_cases h : is_non_whitespace_text s = true
    · have hf := flush_balanced st
      have he := ensure_balanced (flushThinkingBuffer st).1 "text"
      have hd : balancedEvents (ensureBlock (flushThinkingBuffer st).1 "text").1
          (ensureBlock (flushThinkingBuffer st).1 "text").1
          [.contentBlockDelta
            (ensureBlock (flushThinkingBuffer st).1 "text").1.current_block_index
            "text_delta" s] :=
        balancedEvents_of_neutral rfl rfl rfl
      have := balancedEvents_comp hf (balancedEvents_comp he hd)
      simpa [streamPart, h] using this
    · simp only [streamPart, h, Bool.false_eq_true, if_false]
      exact balancedEvents_of_neutral rfl rfl rfl
  | thought s sig =>
    by_cases h : te = true
    · have he := ensure_balanced st "thinking"
      have hd : balancedEvents (ensureBlock st "thinking").1
          (ensureBlock st "thinking").1
          [.contentBlockDelta (ensureBlock st "thinking").1.current_block_index
            "thinking_delta" s] :=
        balancedEvents_of_neutral rfl rfl rfl
      have := balancedEvents_comp he hd
      simpa [streamPart, h] using this
    · by_cases h2 : tt = true
      · simp only [streamPart, h, h2, Bool.false_eq_true, if_false, if_true]
        exact balancedEvents_of_neutral rfl rfl rfl
      · simp only [streamPart, h, h2, Bool.false_eq_true, if_false]
        exact balancedEvents_of_neutral rfl rfl rfl
  | sigOnly sig =>
    by_cases h : (te && (st.current_block_type == some "thinking")) = true
    · simp only [streamPart, h, if_true]
      exact balancedEvents_of_neutral rfl rfl rfl
    · simp only [streamPart, h, Bool.false_eq_true, if_false]
      exact balancedEvents_of_neutral rfl rfl rfl
  | functionCall idOpt name args =>
    have hf := flush_balanced st
    have hc := close_balanced (flushThinkingBuffer st).1
    have ho := open_balanced (close_block_if_open (flushThinkingBuffer st).1).1
      "tool_use" (close_block_type _)
    have hd : balancedEvents
        (open_block (close_block_if_open (flushThinkingBuffer st).1).1 "tool_use").1
        (open_block (close_block_if_open (flushThinkingBuffer st).1).1 "tool_use").1
        [.contentBlockDelta
          (open_block (close_block_if_open (flushThinkingBuffer st).1).1 "tool_use").1.current_block_index
          "input_json_delta" (remove_nulls_for_tool_input args).render] :=
      balancedEvents_of_neutral rfl rfl rfl
    have hall := balancedEvents_comp hf (balancedEvents_comp hc (balancedEvents_comp ho hd))
    refine balancedEvents_congr hall rfl ?_
    simp [streamPart]
  | inlineData mime data =>
    have hf := flush_balanced st
    have hc := close_balanced (flushThinkingBuffer st).1
    have ho := open_balanced (close_block_if_open (flushThinkingBuffer st).1).1
      "image" (close_block_type _)
    have hcl := close_balanced
      (open_block (close_block_if_open (flushThinkingBuffer st).1).1 "image").1
    have hall := balancedEvents_comp hf (balancedEvents_comp hc (balancedEvents_comp ho hcl))
    refine balancedEvents_congr hall rfl ?_
    simp [streamPart]
  | nonDict v =>
    simp only [streamPart]
    exact balancedEvents_of_neutral rfl rfl rfl

/-- Translating a part list is balanced. -/
theorem streamParts_balanced (te tt : Bool) (st : StreamingState) (ps : List RPart) :
    balancedEvents st (streamParts te tt st ps).1 (streamParts te tt st ps).2 := by
  induction ps generalizing st with
  | nil =>
    unfold balancedEvents streamParts
    simp
  | cons p ps ih =>
    have h1 := streamPart_balanced te tt st p
    have h2 := ih (streamPart te tt st p).1
    have := balancedEvents_comp h1 h2
    simpa [streamParts] using this

/-- Processing a chunk is balanced. -/
theorem processChunk_balanced (te tt : Bool) (st : StreamingState) (c : Chunk) :
    balancedEvents st (processChunk te tt st c).1 (processChunk te tt st c).2 := by
  have := streamParts_balanced te tt st c.parts
  unfold balancedEvents at *
  simpa [processChunk, openCount] using this

/-- A balanced step ending with no open block has stops equal to starts
plus the blocks open at entry. -/
theorem balancedEvents_counts {st st' : StreamingState} {evs : List SEvent}
    (h : balancedEvents st st' evs) (h2 : st'.current_block_type = none) :
    evs.countP isStop = evs.countP isStart + openCount st := by
  unfold balancedEvents openCount at *
  simp only [h2] at h
  simp at h
  omega

/-- Finalization emits exactly as many stops as starts plus the number of
blocks open at entry. -/
theorem finalize_counts (st : StreamingState) :
    (finalizeEvents st).countP isStop =
      (finalizeEvents st).countP isStart + openCount st := by
  have hf := flush_balanced st
  have hc := close_balanced (flushThinkingBuffer st).1
  have hrest : balancedEvents (close_block_if_open (flushThinkingBuffer st).1).1
      (close_block_if_open (flushThinkingBuffer st).1).1
      [.messageDelta (computeStopReason (close_block_if_open (flushThinkingBuffer st).1).1),
       .messageStop] :=
    balancedEvents_of_neutral rfl rfl rfl
  have hall := balancedEvents_comp hf (balancedEvents_comp hc hrest)
  have hcnt := balancedEvents_counts hall (close_block_type (flushThinkingBuffer st).1)
  have heq : finalizeEvents st =
      (flushThinkingBuffer st).2 ++
      ((close_block_if_open (flushThinkingBuffer st).1).2.toList ++
       [.messageDelta (computeStopReason (close_block_if_open (flushThinkingBuffer st).1).1),
        .messageStop]) := by
    simp [finalizeEvents]
  rw [heq]
  exact hcnt

/-- The error path emits exactly as many stops as starts plus the number
of blocks open at entry. -/
theorem error_counts (st : StreamingState) (msg : String) :
    (errorEvents st msg).countP isStop =
      (errorEvents st msg).countP isStart + openCount st := by
  have hc := close_balanced st
  have hrest : balancedEvents (close_block_if_open st).1 (close_block_if_open st).1
      [.errorEvent msg] :=
    balancedEvents_of_neutral rfl rfl rfl
  have hall := balancedEvents_comp hc hrest
  have hcnt := balancedEvents_counts hall (close_block_type st)
  have heq : errorEvents st msg =
      (close_block_if_open st).2.toList ++ [.errorEvent msg] := by
    simp [errorEvents]
  rw [heq]
  exact hcnt

/-- Over a whole tail of the stream, stops equal starts plus the blocks
open at entry. -/
theorem runLines_counts (te tt : Bool) (st : StreamingState) (ls : List UpLine) :
    (runLines te tt st ls).countP isStop =
      (runLines te tt st ls).countP isStart + openCount st := by
  induction ls generalizing st with
  | nil => simpa [runLines] using finalize_counts st
  | cons l rest ih =>
    cases l with
    | exn msg => simpa [runLines] using error_counts st msg
    | done => simpa [runLines] using finalize_counts st
    | malformed => simpa [runLines] using ih st
    | chunk c =>
      have hp := processChunk_balanced te tt st c
      unfold balancedEvents at hp
      by_cases h : c.finishReason.isSome = true
      · have hfin := finalize_counts (processChunk te tt st c).1
        simp only [runLines, h, if_true, List.countP_append]
        omega
      · have htail := ih (processChunk te tt st c).1
        simp only [runLines, h, Bool.false_eq_true, if_false, List.countP_append]
        omega

/-- A list with a last element is nonempty. -/
theorem ne_nil_of_getLast_some {α : Type} {l : List α} {a : α}
    (h : l.getLast? = some a) : l ≠ [] := by
  intro hl
  subst hl
  simp at h

/-- Finalization always ends with `message_stop`. -/
theorem finalize_getLast (st : StreamingState) :
    (finalizeEvents st).getLast? = some SEvent.messageStop := by
  simp only [finalizeEvents]
  rw [List.getLast?_append_cons]
  rfl

/-- The error path always ends with the error event. -/
theorem error_getLast (st : StreamingState) (msg : String) :
    (errorEvents st msg).getLast? = some (SEvent.errorEvent msg) := by
  simp only [errorEvents]
  rw [List.getLast?_append_cons]
  rfl

/-- Every tail of the stream ends with `message_stop` or an error event. -/
theorem runLines_getLast (te tt : Bool) (st : StreamingState) (ls : List UpLine) :
    (runLines te tt st ls).getLast? = some SEvent.messageStop ∨
    ∃ msg, (runLines te tt st ls).getLast? = some (SEvent.errorEvent msg) := by
  induction ls generalizing st with
  | nil => exact Or.inl (finalize_getLast st)
  | cons l rest ih =>
    cases l with
    | exn msg => exact Or.inr ⟨msg, error_getLast st msg⟩
    | done => exact Or.inl (finalize_getLast st)
    | malformed => exact ih st
    | chunk c =>
      by_cases h : c.finishReason.isSome = true
      · left
        simp only [runLines, h, if_true]
        rw [List.getLast?_append_of_ne_nil _
          (ne_nil_of_getLast_some (finalize_getLast _))]
        exact finalize_getLast _
      · rcases ih (processChunk te tt st c).1 with h1 | ⟨msg, h1⟩
        · left
          simp only [runLines, h, Bool.false_eq_true, if_false]
          rw [List.getLast?_append_of_ne_nil _ (ne_nil_of_getLast_some h1)]
          exact h1
        · right
          refine ⟨msg, ?_⟩
          simp only [runLines, h, Bool.false_eq_true, if_false]
          rw [List.getLast?_append_of_ne_nil _ (ne_nil_of_getLast_some h1)]
          exact h1

/-- Whether an event is not a `message_delta`. -/
def notMD : SEvent → Bool
  | .messageDelta _ => false
  | _ => true

/-- Whether an event is not a tool_use `content_block_start`. -/
def notToolStart : SEvent → Bool
  | .contentBlockStart _ b => !(b == "tool_use")
  | _ => true

/-- Closing preserves the tool-use flag and the finish reason. -/
theorem close_pres (st : StreamingState) :
    (close_block_if_open st).1.has_tool_use = st.has_tool_use ∧
    (close_block_if_open st).1.finish_reason = st.finish_reason := by
  unfold close_block_if_open
  cases st.current_block_type <;> simp

/-- Ensuring a block preserves the tool-use flag and the finish reason. -/
theorem ensure_pres (st : StreamingState) (b : String) :
    (ensureBlock st b).1.has_tool_use = st.has_tool_use ∧
    (ensureBlock st b).1.finish_reason = st.finish_reason := by
  unfold ensureBlock open_block
  by_cases h : (st.current_block_type == some b) = true
  · simp [h]
  · simpa [h] using close_pres st

/-- Flushing preserves the tool-use flag and the finish reason. -/
theorem flush_pres (st : StreamingState) :
    (flushThinkingBuffer st).1.has_tool_use = st.has_tool_use ∧
    (flushThinkingBuffer st).1.finish_reason = st.finish_reason := by
  unfold flushThinkingBuffer
  by_cases h : (st.thinking_buffer == "") = true
  · simp [h]
  · simpa [h] using ensure_pres st "text"

/-- Events of a close are never message deltas nor tool_use starts. -/
theorem close_events_tame (st : StreamingState) :
    ∀ e ∈ (close_block_if_open st).2.toList, notMD e = true ∧ notToolStart e = true := by
  unfold close_block_if_open
  cases st.current_block_type <;> simp [notMD, notToolStart]

/-- Events of an ensure are never message deltas; the only start they
contain has the ensured type. -/
theorem ensure_events_tame (st : StreamingState) (b : String) :
    ∀ e ∈ (ensureBlock st b).2, notMD e = true ∧
      (notToolStart e = true ∨ b = "tool_use") := by
  unfold ensureBlock
  by_cases h : (st.current_block_type == some b) = true
  · simp [h]
  · simp only [h, Bool.false_eq_true, if_false]
    intro e he
    rcases List.mem_append.1 he with h1 | h1
    · obtain ⟨hm, ht⟩ := close_events_tame st e h1
      exact ⟨hm, Or.inl ht⟩
    · simp only [List.mem_singleton] at h1
      subst h1
      refine ⟨rfl, ?_⟩
      by_cases hb : b = "tool_use"
      · exact Or.inr hb
      · left
        simp [open_block, notToolStart, hb]

/-- Events of a flush are never message deltas nor tool_use starts. -/
theorem flush_events_tame (st : StreamingState) :
    ∀ e ∈ (flushThinkingBuffer st).2, notMD e = true ∧ notToolStart e = true := by
  unfold flushThinkingBuffer
  by_cases h : (st.thinking_buffer == "") = true
  · simp [h]
  · simp only [h, Bool.false_eq_true, if_false]
    intro e he
    rcases List.mem_append.1 he with h1 | h1
    · obtain ⟨hm, ht | hb⟩ := ensure_events_tame st "text" e h1
      · exact ⟨hm, ht⟩
      · simp at hb
    · simp only [List.mem_singleton] at h1
      subst h1
      exact ⟨rfl, rfl⟩

/-- Part translation never emits a message delta. -/
theorem streamPart_notMD (te tt : Bool) (st : StreamingState) (p : RPart) :
    ∀ e ∈ (streamPart te tt st p).2, notMD e = true := by
  cases p with
  | text s =>
    by_cases h : is_non_whitespace_text s = true
    · simp only [streamPart, h, if_true]
      intro e he
      rcases List.mem_append.1 he with h1 | h1
      · rcases List.mem_append.1 h1 with h2 | h2
        · exact (flush_events_tame st e h2).1
        · exact (ensure_events_tame _ "text" e h2).1
      · simp only [List.mem_singleton] at h1
        subst h1
        rfl
    · simp [streamPart, h]
  | thought s sig =>
    by_cases h : te = true
    · simp only [streamPart, h, if_true]
      intro e he
      rcases List.mem_append.1 he with h1 | h1
      · exact (ensure_events_tame _ "thinking" e h1).1
      · simp only [List.mem_singleton] at h1
        subst h1
        rfl
    · by_cases h2 : tt = true
      · simp [streamPart, h, h2]
      · simp [streamPart, h, h2]
  | sigOnly sig =>
    by_cases h : (te && (st.current_block_type == some "thinking")) = true
    · simp only [streamPart, h, if_true]
      intro e he
      simp only [List.mem_singleton] at he
      subst he
      rfl
    · simp [streamPart, h]
  | functionCall idOpt name args =>
    simp only [streamPart]
    intro e he
    rcases List.mem_append.1 he with h1 | h1
    · rcases List.mem_append.1 h1 with h2 | h2
      · exact (flush_events_tame st e h2).1
      · exact (close_events_tame _ e h2).1
    · simp only [List.mem_cons, List.mem_singleton] at h1
      rcases h1 with h1 | h1 | h1
      · subst h1; rfl
      · subst h1; rfl
      · simp at h1
  | inlineData mime data =>
    simp only [streamPart]
    intro e he
    rcases List.mem_append.1 he with h1 | h1
    · rcases List.mem_append.1 h1 with h2 | h2
      · rcases List.mem_append.1 h2 with h3 | h3
        · exact (flush_events_tame st e h3).1
        · exact (close_events_tame _ e h3).1
      · simp only [List.mem_singleton] at h2
        subst h2
        rfl
    · exact (close_events_tame _ e h1).1
  | nonDict v => simp [streamPart]

/-- Part-list translation never emits a message delta. -/
theorem streamParts_notMD (te tt : Bool) (st : StreamingState) (ps : List RPart) :
    ∀ e ∈ (streamParts te tt st ps).2, notMD e = true := by
  induction ps generalizing st with
  | nil => simp [streamParts]
  | cons p ps ih =>
    simp only [streamParts]
    intro e he
    rcases List.mem_append.1 he with h1 | h1
    · exact streamPart_notMD te tt st p e h1
    · exact ih _ e h1

/-- The tool-use flag is monotone under part translation. -/
theorem streamPart_flag_mono (te tt : Bool) (st : StreamingState) (p : RPart)
    (h : st.has_tool_use = true) :
    (streamPart te tt st p).1.has_tool_use = true := by
  cases p with
  | text s =>
    by_cases hw : is_non_whitespace_text s = true
    · simp only [streamPart, hw, if_true]
      rw [(ensure_pres _ "text").1, (flush_pres st).1]
      exact h
    · simpa [streamPart, hw] using h
  | thought s sig =>
    by_cases h1 : te = true
    · simp only [streamPart, h1, if_true]
      rw [(ensure_pres _ "thinking").1]
      exact h
    · by_cases h2 : tt = true
      · simpa [streamPart, h1, h2] using h
      · simpa [streamPart, h1, h2] using h
  | sigOnly sig =>
    by_cases h1 : (te && (st.current_block_type == some "thinking")) = true
    · simpa [streamPart, h1] using h
    · simpa [streamPart, h1] using h
  | functionCall idOpt name args => simp [streamPart, open_block]
  | inlineData mime data =>
    simp only [streamPart]
    rw [(close_pres _).1]
    simp only [open_block]
    rw [(close_pres _).1, (flush_pres st).1]
    exact h
  | nonDict v => simpa [streamPart] using h

/-- The tool-use flag is monotone under part-list translation. -/
theorem streamParts_flag_mono (te tt : Bool) (st : StreamingState)
    (ps : List RPart) (h : st.has_tool_use = true) :
    (streamParts te tt st ps).1.has_tool_use = true := by
  induction ps generalizing st with
  | nil => simpa [streamParts] using h
  | cons p ps ih =>
    simp only [streamParts]
    exact ih _ (streamPart_flag_mono te tt st p h)

/-- If part translation emits a tool_use block start, the resulting state
has the tool-use flag set. -/
theorem streamPart_toolstart_flag (te tt : Bool) (st : StreamingState)
    (p : RPart) (i : Int)
    (h : SEvent.contentBlockStart i "tool_use" ∈ (streamPart te tt st p).2) :
    (streamPart te tt st p).1.has_tool_use = true := by
  cases p with
  | text s =>
    by_cases hw : is_non_whitespace_text s = true
    · simp only [streamPart, hw, if_true] at h
      rcases List.mem_append.1 h with h1 | h1
      · rcases List.mem_append.1 h1 with h2 | h2
        · have := (flush_events_tame st _ h2).2
          simp [notToolStart] at this
        · rcases (ensure_events_tame _ "text" _ h2).2 with ht | hb
          · simp [notToolStart] at ht
          · simp at hb
      · simp at h1
    · simp [streamPart, hw] at h
  | thought s sig =>
    by_cases h1 : te = true
    · simp only [streamPart, h1, if_true] at h
      rcases List.mem_append.1 h with h2 | h2
      · rcases (ensure_events_tame _ "thinking" _ h2).2 with ht | hb
        · simp [notToolStart] at ht
        · simp at hb
      · simp at h2
    · by_cases h2 : tt = true
      · simp [streamPart, h1, h2] at h
      · simp [streamPart, h1, h2] at h
  | sigOnly sig =>
    by_cases h1 : (te && (st.current_block_type == some "thinking")) = true
    · simp [streamPart, h1] at h
    · simp [streamPart, h1] at h
  | functionCall idOpt name args => simp [streamPart, open_block]
  | inlineData mime data =>
    simp only [streamPart] at h
    rcases List.mem_append.1 h with h1 | h1
    · rcases List.mem_append.1 h1 with h2 | h2
      · rcases List.mem_append.1 h2 with h3 | h3
        · have := (flush_events_tame st _ h3).2
          simp [notToolStart] at this
        · have := (close_events_tame _ _ h3).2
          simp [notToolStart] at this
      · simp only [List.mem_singleton] at h2
        simp [open_block] at h2
    · have := (close_events_tame _ _ h1).2
      simp [notToolStart] at this
  | nonDict v => simp [streamPart] at h

/-- If part-list translation emits a tool_use block start, the resulting
state has the tool-use flag set. -/
theorem streamParts_toolstart_flag (te tt : Bool) (st : StreamingState)
    (ps : List RPart) (i : Int)
    (h : SEvent.contentBlockStart i "tool_use" ∈ (streamParts te tt st ps).2) :
    (streamParts te tt st ps).1.has_tool_use = true := by
  induction ps generalizing st with
  | nil => simp [streamParts] at h
  | cons p ps ih =>
    simp only [streamParts] at h ⊢
    rcases List.mem_append.1 h with h1 | h1
    · exact streamParts_flag_mono te tt _ ps
        (streamPart_toolstart_flag te tt st p i h1)
    · exact ih _ h1

/-- Finalization never emits a tool_use block start. -/
theorem finalize_no_toolstart (st : StreamingState) (i : Int) :
    SEvent.contentBlockStart i "tool_use" ∉ finalizeEvents st := by
  intro h
  simp only [finalizeEvents] at h
  rcases List.mem_append.1 h with h1 | h1
  · rcases List.mem_append.1 h1 with h2 | h2
    · have := (flush_events_tame st _ h2).2
      simp [notToolStart] at this
    · have := (close_events_tame _ _ h2).2
      simp [notToolStart] at this
  · simp at h1

/-- The error path never emits a tool_use block start. -/
theorem error_no_toolstart (st : StreamingState) (msg : String) (i : Int) :
    SEvent.contentBlockStart i "tool_use" ∉ errorEvents st msg := by
  intro h
  simp only [errorEvents] at h
  rcases List.mem_append.1 h with h1 | h1
  · have := (close_events_tame _ _ h1).2
    simp [notToolStart] at this
  · simp at h1

/-- Any message delta in the finalization carries the stop reason
computed from the entry state. -/
theorem finalize_md_reason (st : StreamingState) (r : String)
    (h : SEvent.messageDelta r ∈ finalizeEvents st) :
    r = computeStopReason st := by
  simp only [finalizeEvents] at h
  rcases List.mem_append.1 h with h1 | h1
  · rcases List.mem_append.1 h1 with h2 | h2
    · have := (flush_events_tame st _ h2).1
      simp [notMD] at this
    · have := (close_events_tame _ _ h2).1
      simp [notMD] at this
  · simp only [List.mem_cons, List.mem_singleton] at h1
    rcases h1 with h1 | h1
    · injection h1 with h1
      rw [h1]
      unfold computeStopReason
      rw [(close_pres _).1, (flush_pres st).1,
          (close_pres _).2, (flush_pres st).2]
    · simp at h1

/-- The error path never emits a message delta. -/
theorem error_no_md (st : StreamingState) (msg : String) (r : String) :
    SEvent.messageDelta r ∉ errorEvents st msg := by
  intro h
  simp only [errorEvents] at h
  rcases List.mem_append.1 h with h1 | h1
  · have := (close_events_tame _ _ h1).1
    simp [notMD] at this
  · simp at h1

/-- Chunk processing never emits a message delta. -/
theorem processChunk_notMD (te tt : Bool) (st : StreamingState) (c : Chunk) :
    ∀ e ∈ (processChunk te tt st c).2, notMD e = true := by
  simpa [processChunk] using streamParts_notMD te tt st c.parts

/-- The tool-use flag is monotone under chunk processing. -/
theorem processChunk_flag_mono (te tt : Bool) (st : StreamingState) (c : Chunk)
    (h : st.has_tool_use = true) :
    (processChunk te tt st c).1.has_tool_use = true := by
  simpa [processChunk] using streamParts_flag_mono te tt st c.parts h

/-- A tool_use start emitted by chunk processing sets the flag. -/
theorem processChunk_toolstart_flag (te tt : Bool) (st : StreamingState)
    (c : Chunk) (i : Int)
    (h : SEvent.contentBlockStart i "tool_use" ∈ (processChunk te tt st c).2) :
    (processChunk te tt st c).1.has_tool_use = true := by
  simp only [processChunk] at h ⊢
  exact streamParts_toolstart_flag te tt st c.parts i h

/-- Once the tool-use flag is set, every later message delta carries
stop reason `tool_use`. -/
theorem runLines_flag_md (te tt : Bool) (st : StreamingState) (ls : List UpLine)
    (hflag : st.has_tool_use = true) :
    ∀ r, SEvent.messageDelta r ∈ runLines te tt st ls → r = "tool_use" := by
  induction ls generalizing st with
  | nil =>
    intro r h
    rw [finalize_md_reason st r h]
    unfold computeStopReason
    simp [hflag]
  | cons l rest ih =>
    cases l with
    | exn msg => intro r h; exact absurd h (error_no_md st msg r)
    | done =>
      intro r h
      simp only [runLines] at h
      rw [finalize_md_reason st r h]
      unfold computeStopReason
      simp [hflag]
    | malformed => exact ih st hflag
    | chunk c =>
      intro r h
      by_cases hf : c.finishReason.isSome = true
      · simp only [runLines, hf, if_true] at h
        rcases List.mem_append.1 h with h1 | h1
        · have := processChunk_notMD te tt st c _ h1
          simp [notMD] at this
        · rw [finalize_md_reason _ r h1]
          unfold computeStopReason
          simp [processChunk_flag_mono te tt st c hflag]
      · simp only [runLines, hf, Bool.false_eq_true, if_false] at h
        rcases List.mem_append.1 h with h1 | h1
        · have := processChunk_notMD te tt st c _ h1
          simp [notMD] at this
        · exact ih _ (processChunk_flag_mono te tt st c hflag) r h1

/-- If the stream tail emits a tool_use block start, every message delta
in it carries stop reason `tool_use`. -/
theorem runLines_toolstart_md (te tt : Bool) (st : StreamingState)
    (ls : List UpLine) :
    ∀ i r, SEvent.contentBlockStart i "tool_use" ∈ runLines te tt st ls →
      SEvent.messageDelta r ∈ runLines te tt st ls → r = "tool_use" := by
  induction ls generalizing st with
  | nil => intro i r hs _; exact absurd hs (finalize_no_toolstart st i)
  | cons l rest ih =>
    cases l with
    | exn msg => intro i r hs _; exact absurd hs (error_no_toolstart st msg i)
    | done =>
      intro i r hs _
      simp only [runLines] at hs
      exact absurd hs (finalize_no_toolstart st i)
    | malformed => exact ih st
    | chunk c =>
      intro i r hs hm
      by_cases hf : c.finishReason.isSome = true
      · simp only [runLines, hf, if_true] at hs hm
        rcases List.mem_append.1 hs with hs1 | hs1
        · have hflag := processChunk_toolstart_flag te tt st c i hs1
          rcases List.mem_append.1 hm with hm1 | hm1
          · have := processChunk_notMD te tt st c _ hm1
            simp [notMD] at this
          · rw [finalize_md_reason _ r hm1]
            unfold computeStopReason
            simp [hflag]
        · exact absurd hs1 (finalize_no_toolstart _ i)
      · simp only [runLines, hf, Bool.false_eq_true, if_false] at hs hm
        rcases List.mem_append.1 hs with hs1 | hs1
        · have hflag := processChunk_toolstart_flag te tt st c i hs1
          rcases List.mem_append.1 hm with hm1 | hm1
          · have := processChunk_notMD te tt st c _ hm1
            simp [notMD] at this
          · exact runLines_flag_md te tt _ rest hflag r hm1
        · rcases List.mem_append.1 hm with hm1 | hm1
          · have := processChunk_notMD te tt st c _ hm1
            simp [notMD] at this
          · exact ih _ i r hs1 hm1

/-- Whether an upstream part is a functionCall part. -/
def isFunctionCallPart : RPart → Bool
  | .functionCall _ _ _ => true
  | _ => false

/-- Whether a chunk carries no functionCall part. -/
def chunkNoFunctionCall (c : Chunk) : Bool :=
  c.parts.all fun p => !isFunctionCallPart p

/-- Whether the portion of the stream the machine actually consumes
(everything up to the first finish-reason chunk, terminator or
exception) contains no functionCall part. -/
def consumedNoFunctionCall : List UpLine → Bool
  | [] => true
  | .exn _ :: _ => true
  | .done :: _ => true
  | .malformed :: rest => consumedNoFunctionCall rest
  | .chunk c :: rest =>
    chunkNoFunctionCall c &&
    (if c.finishReason.isSome then true else consumedNoFunctionCall rest)

/-- The finish reason the machine terminates with: the first finish
reason carried by a consumed chunk, or `none` on exhaustion, terminator
or exception. -/
def streamFinish : List UpLine → Option String
  | [] => none
  | .exn _ :: _ => none
  | .done :: _ => none
  | .malformed :: rest => streamFinish rest
  | .chunk c :: rest =>
    match c.finishReason with
    | some f => some f
    | none => streamFinish rest

/-- Part translation never changes the recorded finish reason. -/
theorem streamPart_finish_pres (te tt : Bool) (st : StreamingState) (p : RPart) :
    (streamPart te tt st p).1.finish_reason = st.finish_reason := by
  cases p with
  | text s =>
    by_cases h : is_non_whitespace_text s = true
    · simp only [streamPart, h, if_true]
      rw [(ensure_pres _ "text").2, (flush_pres st).2]
    · simp [streamPart, h]
  | thought s sig =>
    by_cases h : te = true
    · simp only [streamPart, h, if_true]
      rw [(ensure_pres _ "thinking").2]
    · by_cases h2 : tt = true
      · simp [streamPart, h, h2]
      · simp [streamPart, h, h2]
  | sigOnly sig =>
    by_cases h : (te && (st.current_block_type == some "thinking")) = true
    · simp [streamPart, h]
    · simp [streamPart, h]
  | functionCall idOpt name args =>
    simp only [streamPart, open_block]
    rw [(close_pres _).2, (flush_pres st).2]
  | inlineData mime data =>
    simp only [streamPart]
    rw [(close_pres _).2]
    simp only [open_block]
    rw [(close_pres _).2, (flush_pres st).2]
  | nonDict v => simp [streamPart]

/-- Part-list translation never changes the recorded finish reason. -/
theorem streamParts_finish_pres (te tt : Bool) (st : StreamingState)
    (ps : List RPart) :
    (streamParts te tt st ps).1.finish_reason = st.finish_reason := by
  induction ps generalizing st with
  | nil => simp [streamParts]
  | cons p ps ih =>
    simp only [streamParts]
    rw [ih _, streamPart_finish_pres]

/-- Translating a non-functionCall part preserves the tool-use flag. -/
theorem streamPart_flag_pres (te tt : Bool) (st : StreamingState) (p : RPart)
    (h : isFunctionCallPart p = false) :
    (streamPart te tt st p).1.has_tool_use = st.has_tool_use := by
  cases p with
  | text s =>
    by_cases hw : is_non_whitespace_text s = true
    · simp only [streamPart, hw, if_true]
      rw [(ensure_pres _ "text").1, (flush_pres st).1]
    · simp [streamPart, hw]
  | thought s sig =>
    by_cases h1 : te = true
    · simp only [streamPart, h1, if_true]
      rw [(ensure_pres _ "thinking").1]
    · by_cases h2 : tt = true
      · simp [streamPart, h1, h2]
      · simp [streamPart, h1, h2]
  | sigOnly sig =>
    by_cases h1 : (te && (st.current_block_type == some "thinking")) = true
    · simp [streamPart, h1]
    · simp [streamPart, h1]
  | functionCall idOpt name args => simp [isFunctionCallPart] at h
  | inlineData mime data =>
    simp only [streamPart]
    rw [(close_pres _).1]
    simp only [open_block]
    rw [(close_pres _).1, (flush_pres st).1]
  | nonDict v => simp [streamPart]

/-- Translating a functionCall-free part list preserves the tool-use
flag. -/
theorem streamParts_flag_pres (te tt : Bool) (st : StreamingState)
    (ps : List RPart) (h : (ps.all fun p => !isFunctionCallPart p) = true) :
    (streamParts te tt st ps).1.has_tool_use = st.has_tool_use := by
  induction ps generalizing st with
  | nil => simp [streamParts]
  | cons p ps ih =>
    simp only [List.all_cons, Bool.and_eq_true, Bool.not_eq_true'] at h
    simp only [streamParts]
    rw [ih _ (by simpa using h.2), streamPart_flag_pres te tt st p h.1]

/-- Processing a functionCall-free chunk preserves the tool-use flag. -/
theorem processChunk_flag_pres (te tt : Bool) (st : StreamingState) (c : Chunk)
    (h : chunkNoFunctionCall c = true) :
    (processChunk te tt st c).1.has_tool_use = st.has_tool_use := by
  simpa [processChunk] using streamParts_flag_pres te tt st c.parts h

/-- The recorded finish reason after a chunk: the chunk's own if present,
else the entry state's. -/
theorem processChunk_finish (te tt : Bool) (st : StreamingState) (c : Chunk) :
    (processChunk te tt st c).1.finish_reason =
      (match c.finishReason with
       | some f => some f
       | none => st.finish_reason) := by
  cases hc : c.finishReason with
  | some f => simp [processChunk, hc]
  | none => simp [processChunk, hc, streamParts_finish_pres]

/-- Over a functionCall-free consumed stream, every message delta carries
the mapped stream finish reason. -/
theorem runLines_no_fc_md (te tt : Bool) (st : StreamingState)
    (ls : List UpLine) (hflag : st.has_tool_use = false)
    (hfin : st.finish_reason = none)
    (hno : consumedNoFunctionCall ls = true) :
    ∀ r, SEvent.messageDelta r ∈ runLines te tt st ls →
      r = mapFinishReason (streamFinish ls) := by
  induction ls generalizing st with
  | nil =>
    intro r h
    rw [finalize_md_reason st r h]
    unfold computeStopReason
    simp [hflag, hfin, streamFinish]
  | cons l rest ih =>
    cases l with
    | exn msg => intro r h; exact absurd h (error_no_md st msg r)
    | done =>
      intro r h
      simp only [runLines] at h
      rw [finalize_md_reason st r h]
      unfold computeStopReason
      simp [hflag, hfin, streamFinish]
    | malformed =>
      intro r h
      simp only [consumedNoFunctionCall] at hno
      simp only [streamFinish]
      exact ih st hflag hfin hno r (by simpa [runLines] using h)
    | chunk c =>
      intro r h
      simp only [consumedNoFunctionCall, Bool.and_eq_true] at hno
      obtain ⟨hcNoFC, hrest⟩ := hno
      have hflag' : (processChunk te tt st c).1.has_tool_use = false := by
        rw [processChunk_flag_pres te tt st c hcNoFC]
        exact hflag
      by_cases hf : c.finishReason.isSome = true
      · obtain ⟨f, hf2⟩ := Option.isSome_iff_exists.1 hf
        simp only [runLines, hf, if_true] at h
        rcases List.mem_append.1 h with h1 | h1
        · have := processChunk_notMD te tt st c _ h1
          simp [notMD] at this
        · rw [finalize_md_reason _ r h1]
          unfold computeStopReason
          have hfin2 : (processChunk te tt st c).1.finish_reason = some f := by
            rw [processChunk_finish]
            simp [hf2]
          simp [hflag', hfin2, streamFinish, hf2]
      · have hf2 : c.finishReason = none := by
          cases hc : c.finishReason with
          | none => rfl
          | some f => rw [hc] at hf; simp at hf
        have hfin' : (processChunk te tt st c).1.finish_reason = none := by
          rw [processChunk_finish]
          simp [hf2, hfin]
        have hrest' : consumedNoFunctionCall rest = true := by
          simpa [hf] using hrest
        simp only [runLines, hf, Bool.false_eq_true, if_false] at h
        rcases List.mem_append.1 h with h1 | h1
        · have := processChunk_notMD te tt st c _ h1
          simp [notMD] at this
        · have := ih _ hflag' hfin' hrest' r h1
          simpa [streamFinish, hf2] using this

/-- With a pending signature and thinking seen, the first call gets the
signature and the rest get no signature field. -/
theorem runBlocks_calls_after_sig (inc : Bool) (st : ConvSt) (sg : String)
    (c : String × String × JVal) (cs : List (String × String × JVal))
    (hp : st.turn.pending = some sg) (hs : st.turn.thinkingSeen = true) :
    (runBlocks inc st ((c :: cs).map fun p => CBlock.toolUse p.1 p.2.1 p.2.2)).2 =
      GPart.functionCall c.1 c.2.1 c.2.2 (some sg) ::
        cs.map fun p => GPart.functionCall p.1 p.2.1 p.2.2 none := by
  have step := runBlocks_consumed_calls inc
    ⟨(c.1, c.2.1) :: st.table, ⟨none, true⟩⟩ cs rfl rfl
  simp only [List.map_cons, runBlocks, stepBlock, hp, hs]
  simp [step]

/-- Converting a turn with no thinking block gives every functionCall the
sentinel signature. -/
theorem convert_no_thinking_sentinel (inc : Bool) (msgs : List AMsg)
    (h : (flatBlocks msgs).all (fun b => !isThinkingBlock b) = true) :
    ∀ id nm args sig,
      GPart.functionCall id nm args sig ∈
        allParts (convert_messages_to_contents msgs inc) →
      sig = some SKIP_THOUGHT_SIGNATURE := by
  intro id nm args sig hp
  obtain ⟨m, hm, st2, hpart⟩ := mem_allParts_go inc initConvSt msgs _ hp
  have hall : (blocksOf m).all (fun b => !isThinkingBlock b) = true := by
    rw [List.all_eq_true] at h ⊢
    intro b hb
    refine h b ?_
    unfold flatBlocks
    exact List.mem_flatMap.2 ⟨m, hm, hb⟩
  exact runBlocks_no_thinking_sentinel inc (freshTurn st2) (blocksOf m)
    hall rfl rfl id nm args sig hpart

/-- The converter never emits an empty-string thought signature. -/
theorem convert_sig_never_empty (inc : Bool) (msgs : List AMsg)
    (id nm : String) (args : JVal) :
    GPart.functionCall id nm args (some "") ∉
      allParts (convert_messages_to_contents msgs inc) := by
  intro hp
  obtain ⟨m, _, st2, hpart⟩ := mem_allParts_go inc initConvSt msgs _ hp
  exact runBlocks_sig_ne_empty inc (freshTurn st2) (blocksOf m)
    (by simp [freshTurn]) id nm args hpart

/-- The signature projections of a no-signature call list. -/
theorem filterMap_fc_sigs (cs : List (String × String × JVal)) :
    List.filterMap
      (fun p => match p with
        | GPart.functionCall _ _ _ sig => some sig
        | _ => none)
      (cs.map fun p => GPart.functionCall p.1 p.2.1 p.2.2 none) =
    cs.map fun _ => (none : Option String) := by
  induction cs with
  | nil => rfl
  | cons c cs ih => simp [List.filterMap_cons, ih]

/-- Converting one thinking block followed by parallel calls: the first
call carries the captured signature, the others carry none. -/
theorem convert_parallel_sigs (inc : Bool) (role : String)
    (tOpt : Option String) (sig : String) (hsig : (sig == "") = false)
    (c : String × String × JVal) (cs : List (String × String × JVal)) :
    functionCallSigs (convert_messages_to_contents
      [⟨role, .list (.thinking tOpt (some sig) ::
        (c :: cs).map fun p => CBlock.toolUse p.1 p.2.1 p.2.2)⟩] inc) =
    some sig :: cs.map (fun _ => none) := by
  have hcap : captureSignature (some sig) = some sig := by
    simp [captureSignature, hsig]
  have hrun : (runBlocks inc (freshTurn initConvSt)
      (CBlock.thinking tOpt (some sig) ::
        (c :: cs).map fun p => CBlock.toolUse p.1 p.2.1 p.2.2)).2 =
      (if inc then [GPart.text (tOpt.getD "")] else []) ++
      (GPart.functionCall c.1 c.2.1 c.2.2 (some sig) ::
        cs.map fun p => GPart.functionCall p.1 p.2.1 p.2.2 none) := by
    simp only [runBlocks, stepBlock, freshTurn, hcap, List.map_cons]
    rw [runBlocks_consumed_calls inc
      ⟨(c.1, c.2.1) :: initConvSt.table, ⟨none, true⟩⟩ cs rfl rfl]
    simp
  simp only [convert_messages_to_contents, convertMessagesGo, convertMessage,
    blocksOf]
  rw [hrun]
  have hne : ((if inc then [GPart.text (tOpt.getD "")] else []) ++
      (GPart.functionCall c.1 c.2.1 c.2.2 (some sig) ::
        cs.map fun p => GPart.functionCall p.1 p.2.1 p.2.2 none)).isEmpty = false := by
    cases inc <;> simp
  rw [hne]
  simp only [Bool.false_eq_true, if_false]
  simp only [functionCallSigs, allParts, List.flatMap_cons, List.flatMap_nil,
    List.append_nil]
  cases inc with
  | false =>
    simp only [Bool.false_eq_true, if_false, List.nil_append, List.filterMap_cons]
    rw [filterMap_fc_sigs]
  | true =>
    simp only [if_true, List.cons_append, List.nil_append, List.filterMap_cons]
    rw [filterMap_fc_sigs]

/-- The parts the converter produces from the turn `m` when it follows
the messages `pre` in a conversation: the per-turn signature state is
fresh, the correlation table is the one accumulated over `pre`. -/
def turnParts (inc : Bool) (pre : List AMsg) (m : AMsg) : List GPart :=
  (runBlocks inc (freshTurn (stateAfterMsgs inc initConvSt pre)) (blocksOf m)).2

/-- The thought-signature fields of the functionCall parts of a part
list, in order. -/
def partsSigs (ps : List GPart) : List (Option String) :=
  ps.filterMap fun p =>
    match p with
    | .functionCall _ _ _ sig => some sig
    | _ => none

/-- Converting a thinking block followed by calls, from any starting
state with a fresh turn: the thinking part (when included), then the
first call with the captured signature, then the rest with none. -/
theorem runBlocks_thinking_calls (inc : Bool) (st : ConvSt)
    (tOpt : Option String) (sig : String) (hsig : (sig == "") = false)
    (c : String × String × JVal) (cs : List (String × String × JVal)) :
    (runBlocks inc (freshTurn st)
      (CBlock.thinking tOpt (some sig) ::
        (c :: cs).map fun p => CBlock.toolUse p.1 p.2.1 p.2.2)).2 =
    (if inc then [GPart.text (tOpt.getD "")] else []) ++
    (GPart.functionCall c.1 c.2.1 c.2.2 (some sig) ::
      cs.map fun p => GPart.functionCall p.1 p.2.1 p.2.2 none) := by
  have hcap : captureSignature (some sig) = some sig := by
    simp [captureSignature, hsig]
  simp only [runBlocks, stepBlock, freshTurn, hcap, List.map_cons]
  rw [runBlocks_consumed_calls inc ⟨(c.1, c.2.1) :: st.table, ⟨none, true⟩⟩ cs rfl rfl]
  simp

/-- In any conversation context, a turn made of one thinking block
followed by parallel calls yields the captured signature on the first
call and no signature field on the rest. -/
theorem turnParts_parallel_sigs (inc : Bool) (pre : List AMsg) (role : String)
    (tOpt : Option String) (sig : String) (hsig : (sig == "") = false)
    (c : String × String × JVal) (cs : List (String × String × JVal)) :
    partsSigs (turnParts inc pre
      ⟨role, .list (.thinking tOpt (some sig) ::
        (c :: cs).map fun p => CBlock.toolUse p.1 p.2.1 p.2.2)⟩) =
    some sig :: cs.map (fun _ => none) := by
  unfold turnParts partsSigs
  simp only [blocksOf]
  rw [runBlocks_thinking_calls inc _ tOpt sig hsig c cs]
  cases inc with
  | false =>
    simp only [Bool.false_eq_true, if_false, List.nil_append, List.filterMap_cons]
    rw [filterMap_fc_sigs]
  | true =>
    simp only [if_true, List.cons_append, List.nil_append, List.filterMap_cons]
    rw [filterMap_fc_sigs]

/-- What a turn produces is part of what the whole conversation
produces. -/
theorem turnParts_mem (inc : Bool) (pre : List AMsg) (m : AMsg)
    (post : List AMsg) (p : GPart) (hp : p ∈ turnParts inc pre m) :
    p ∈ allParts (convert_messages_to_contents (pre ++ m :: post) inc) := by
  rw [convert_messages_to_contents, convertMessagesGo_append, allParts_append]
  apply List.mem_append_right
  unfold turnParts at hp
  simp only [convertMessagesGo, convertMessage]
  by_cases hE :
      (runBlocks inc (freshTurn (stateAfterMsgs inc initConvSt pre)) (blocksOf m)).2.isEmpty = true
  · rw [List.isEmpty_iff] at hE
    rw [hE] at hp
    simp at hp
  · have hE' :
        (runBlocks inc (freshTurn (stateAfterMsgs inc initConvSt pre)) (blocksOf m)).2.isEmpty = false := by
      simpa using hE
    rw [hE']
    simp only [Bool.false_eq_true, if_false]
    simp only [allParts, List.flatMap_cons]
    exact List.mem_append_left _ hp

/-! ### Concrete example inputs used by counterexamples and witnesses. -/

/-- A schema whose `$ref` hides under a key the normalizer does not
recurse into. -/
def nestedRefSchema : JVal :=
  .obj [("type", .str "object"), ("default", .obj [("$ref", .str "#/defs/x")])]

/-- The parallel-tool-call turn of
`test_parallel_function_calls_only_first_gets_signature`: one thinking
block followed by two tool_use blocks. -/
def parallelCallsExample : List AMsg :=
  [⟨"assistant", .list
    [.thinking (some "Let me run multiple commands...") (some "parallel_sig"),
     .toolUse "toolu_1" "Bash" (.obj [("command", .str "ls")]),
     .toolUse "toolu_2" "Bash" (.obj [("command", .str "pwd")])]⟩]

/-! ### Claim theorems -/

/-- C5 counterexample: `clean_json_schema` does leave `$ref` in the
output when it is nested under a key other than `properties`/`items`:
the claim "the output contains none of the keys … at any nesting depth"
is false at this input. -/
theorem claim5_counterexample :
    ¬ containsUnsupportedKey (clean_json_schema nestedRefSchema) = false := by
  decide

/-- C5 (amended): for every input, the cleaned output has none of the
keys `$ref`/`$schema`/`$id`/`oneOf`/`anyOf`/`allOf` at its top level nor
anywhere reachable through `properties` values and `items` schemas (the
paths the normalizer cleans recursively), and every non-object input is
returned unchanged. -/
theorem claim5_schema_normalizer :
    (∀ v, schemaUnsupportedFree (clean_json_schema v) = true) ∧
    (∀ s, clean_json_schema (.str s) = .str s) ∧
    (∀ n, clean_json_schema (.num n) = .num n) ∧
    (∀ b, clean_json_schema (.bool b) = .bool b) ∧
    (∀ xs, clean_json_schema (.arr xs) = .arr xs) ∧
    clean_json_schema .null = .null :=
  ⟨clean_json_schema_free, fun _ => rfl, fun _ => rfl, fun _ => rfl,
   fun _ => rfl, rfl⟩

/-- C6: the model mapper is total — `none` (a non-string model), the
empty string and unknown identifiers map to the fixed default family —
and idempotent on its own output: mapping any output again returns it
unchanged. -/
theorem claim6_model_mapper :
    (∀ m, map_claude_model_to_gemini (some (map_claude_model_to_gemini m)) =
      map_claude_model_to_gemini m) ∧
    map_claude_model_to_gemini none = DEFAULT_CLAUDE_MODEL ∧
    map_claude_model_to_gemini (some "") = DEFAULT_CLAUDE_MODEL ∧
    map_claude_model_to_gemini (some "unknown-model-xyz") = DEFAULT_CLAUDE_MODEL := by
  refine ⟨fun m => ?_, by decide, by decide, by decide⟩
  exact map_claude_model_fixed _ (map_claude_model_mem m)

/-- C9: the null-removal step (`remove_nulls_for_tool_input`, embedded
from `src/anthropic_helpers.py`) yields a structure with no null dict
entry and no null list element at any depth; non-dict, non-list values
are returned unchanged; and the response converter uses exactly its
output as the tool_use block's input. -/
theorem claim9_null_removal :
    (∀ v, (remove_nulls_for_tool_input v).noNulls = true) ∧
    (∀ s, remove_nulls_for_tool_input (.str s) = .str s) ∧
    (∀ n, remove_nulls_for_tool_input (.num n) = .num n) ∧
    (∀ b, remove_nulls_for_tool_input (.bool b) = .bool b) ∧
    remove_nulls_for_tool_input .null = .null ∧
    (∀ te tt buf idOpt name args,
      (stepRespPart te tt buf (.functionCall idOpt name args)).2 =
        finishBlocks buf ++
        [ABlock.toolUse (idOpt.getD ("toolu_" ++ name)) name
          (remove_nulls_for_tool_input args)]) :=
  ⟨remove_nulls_noNulls, fun _ => rfl, fun _ => rfl, fun _ => rfl, rfl,
   fun _ _ _ _ _ _ => rfl⟩

/-- C1 counterexample: at the parallel-calls input of
`test_parallel_function_calls_only_first_gets_signature`, the claim "every
functionCall part carries a thoughtSignature that is present and
non-empty" is false — the second call carries no signature field. -/
theorem claim1_counterexample :
    ¬ (∀ sg ∈ functionCallSigs
        (convert_messages_to_contents parallelCallsExample true),
        sg ≠ none ∧ sg ≠ some "") := by
  decide

/-- An assistant turn that does contain thinking (conversation context
for the witnesses). -/
def thinkingTurnExample : AMsg :=
  ⟨"assistant", .list
    [.thinking (some "earlier thoughts") (some "sig_prev"),
     .toolUse "toolu_0" "Bash" (.obj [("command", .str "pwd")])]⟩

/-- An assistant turn with a tool call but no thinking block. -/
def noThinkingTurnExample : AMsg :=
  ⟨"assistant", .list
    [.toolUse "toolu_abc" "Bash" (.obj [("command", .str "echo hello")])]⟩

/-- The single parallel-calls turn of `parallelCallsExample`, as one
message. -/
def parallelTurnExample : AMsg :=
  ⟨"assistant", .list
    [.thinking (some "Let me run multiple commands...") (some "parallel_sig"),
     .toolUse "toolu_1" "Bash" (.obj [("command", .str "ls")]),
     .toolUse "toolu_2" "Bash" (.obj [("command", .str "pwd")])]⟩

/-- C1 (amended): per turn, in any conversation context — every
functionCall produced from a turn containing no thinking block carries
the fixed non-empty sentinel (even when other turns contain thinking);
the signature field is never the empty string anywhere in the converted
conversation; when N parallel tool_use blocks follow a single thinking
block in a turn, exactly the first functionCall carries the captured
signature and the other N−1 carry no thoughtSignature field at all; and
a turn's parts are exactly what the conversation-level converter emits
for it. -/
theorem claim1_signature_rules :
    (∀ inc pre m,
      ((blocksOf m).all fun b => !isThinkingBlock b) = true →
      ∀ id nm args sig,
        GPart.functionCall id nm args sig ∈ turnParts inc pre m →
        sig = some SKIP_THOUGHT_SIGNATURE) ∧
    SKIP_THOUGHT_SIGNATURE ≠ "" ∧
    (∀ inc msgs id nm args,
      GPart.functionCall id nm args (some "") ∉
        allParts (convert_messages_to_contents msgs inc)) ∧
    (∀ (inc : Bool) (pre : List AMsg) (role : String) (tOpt : Option String)
      (sig : String) (c : String × String × JVal)
      (cs : List (String × String × JVal)),
      (sig == "") = false →
      partsSigs (turnParts inc pre
        ⟨role, .list (.thinking tOpt (some sig) ::
          (c :: cs).map fun p => CBlock.toolUse p.1 p.2.1 p.2.2)⟩) =
      some sig :: cs.map (fun _ => none)) ∧
    (∀ inc pre m post p, p ∈ turnParts inc pre m →
      p ∈ allParts (convert_messages_to_contents (pre ++ m :: post) inc)) := by
  refine ⟨?_, by decide, convert_sig_never_empty,
    fun inc pre role tOpt sig c cs hsig =>
      turnParts_parallel_sigs inc pre role tOpt sig hsig c cs,
    turnParts_mem⟩
  intro inc pre m hall id nm args sig hp
  exact runBlocks_no_thinking_sentinel inc
    (freshTurn (stateAfterMsgs inc initConvSt pre)) (blocksOf m)
    hall rfl rfl id nm args sig hp

/-- C1 witness: the amended rules applied with a thinking turn earlier in
the conversation — the parallel-calls turn still gets
`[captured, none]`, and a later thinking-free turn still gets the
sentinel on its calls. -/
theorem claim1_witness :
    (("parallel_sig" == "") = false ∧
      partsSigs (turnParts true [thinkingTurnExample] parallelTurnExample) =
        [some "parallel_sig", none]) ∧
    (((blocksOf noThinkingTurnExample).all fun b => !isThinkingBlock b) = true ∧
      ∀ id nm args sig,
        GPart.functionCall id nm args sig ∈
          turnParts true [thinkingTurnExample] noThinkingTurnExample →
        sig = some SKIP_THOUGHT_SIGNATURE) :=
  ⟨⟨by decide,
    claim1_signature_rules.2.2.2.1 true [thinkingTurnExample] "assistant"
      (some "Let me run multiple commands...") "parallel_sig"
      ("toolu_1", "Bash", .obj [("command", .str "ls")])
      [("toolu_2", "Bash", .obj [("command", .str "pwd")])] (by decide)⟩,
   ⟨by decide,
    claim1_signature_rules.1 true [thinkingTurnExample] noThinkingTurnExample
      (by decide)⟩⟩

/-- C2: every streaming trace starts with `message_start`, ends with
`message_stop` or an `error` event (including traces where the upstream
iterator raises before yielding any data), and contains exactly as many
`content_block_stop` events as `content_block_start` events. -/
theorem claim2_stream_event_shape (te tt : Bool) (mid model : String)
    (lines : List UpLine) :
    (antigravity_sse_to_anthropic_sse te tt mid model lines).head? =
      some SEvent.messageStart ∧
    ((antigravity_sse_to_anthropic_sse te tt mid model lines).getLast? =
        some SEvent.messageStop ∨
      ∃ msg, (antigravity_sse_to_anthropic_sse te tt mid model lines).getLast? =
        some (SEvent.errorEvent msg)) ∧
    (antigravity_sse_to_anthropic_sse te tt mid model lines).countP isStop =
      (antigravity_sse_to_anthropic_sse te tt mid model lines).countP isStart := by
  refine ⟨rfl, ?_, ?_⟩
  · have h := runLines_getLast te tt (initStreamingState mid model) lines
    have hne : runLines te tt (initStreamingState mid model) lines ≠ [] := by
      rcases h with h1 | ⟨msg, h1⟩ <;> exact ne_nil_of_getLast_some h1
    have hcons : (antigravity_sse_to_anthropic_sse te tt mid model lines).getLast? =
        (runLines te tt (initStreamingState mid model) lines).getLast? := by
      unfold antigravity_sse_to_anthropic_sse
      cases hl : runLines te tt (initStreamingState mid model) lines with
      | nil => exact absurd hl hne
      | cons e es => rw [List.getLast?_cons_cons]
    rw [hcons]
    exact h
  · have h := runLines_counts te tt (initStreamingState mid model) lines
    unfold antigravity_sse_to_anthropic_sse
    simp only [List.countP_cons, isStop, isStart]
    simpa [openCount, initStreamingState] using h

/-- C3: when a tool_use with id `X` and (non-empty) name `N` precedes a
tool_result referencing `X` with no explicit name — and every earlier
tool_use with id `X` carries name `N` — the converter emits a
functionResponse named `N`; for a tool_result with no matching tool_use
and no explicit name, the emitted functionResponse carries the non-empty
synthesized name, which is `function_<id>` or `unknown_function`. -/
theorem claim3_tool_result_names :
    (∀ inc msgsPre msgsPost role bsPre bsPost X N cnt,
      ¬ N = "" →
      ((flatBlocks msgsPre ++ bsPre).any (isToolUseWithId X)) = true →
      ((flatBlocks msgsPre ++ bsPre).all (toolUseNameOk X N)) = true →
      GPart.functionResponse X N (extract_tool_result_output cnt) ∈
        allParts (convert_messages_to_contents
          (msgsPre ++ ⟨role, .list (bsPre ++ .toolResult X none cnt :: bsPost)⟩
            :: msgsPost) inc)) ∧
    (∀ inc msgsPre msgsPost role bsPre bsPost X cnt,
      ((flatBlocks msgsPre ++ bsPre).any (isToolUseWithId X)) = false →
      (GPart.functionResponse X (synthName X) (extract_tool_result_output cnt) ∈
        allParts (convert_messages_to_contents
          (msgsPre ++ ⟨role, .list (bsPre ++ .toolResult X none cnt :: bsPost)⟩
            :: msgsPost) inc)) ∧
      synthName X ≠ "" ∧
      (synthName X = "function_" ++ X ∨ synthName X = "unknown_function")) := by
  constructor
  · intro inc msgsPre msgsPost role bsPre bsPost X N cnt hN hex hall
    have hall' : ∀ b ∈ flatBlocks msgsPre ++ bsPre, toolUseNameOk X N b = true :=
      List.all_eq_true.1 hall
    have hlook : lookupStr (tableOf [] (flatBlocks msgsPre ++ bsPre)) X = some N :=
      lookup_tableOf_of_any [] _ X N hall' hex
    have hres : resolveResponseName (tableOf [] (flatBlocks msgsPre ++ bsPre))
        none X = N := by
      have hN' : (N == "") = false := by
        simpa using hN
      simp [resolveResponseName, lookupName, hlook, hN']
    have := toolResult_part_emitted inc msgsPre msgsPost role bsPre bsPost X
      none cnt
    rw [hres] at this
    exact this
  · intro inc msgsPre msgsPost role bsPre bsPost X cnt hex
    have hlook : lookupStr (tableOf [] (flatBlocks msgsPre ++ bsPre)) X = none :=
      lookup_tableOf_of_none [] _ X hex rfl
    have hres : resolveResponseName (tableOf [] (flatBlocks msgsPre ++ bsPre))
        none X = synthName X := by
      simp [resolveResponseName, lookupName, hlook]
    refine ⟨?_, ?_, ?_⟩
    · have := toolResult_part_emitted inc msgsPre msgsPost role bsPre bsPost X
        none cnt
      rw [hres] at this
      exact this
    · unfold synthName
      by_cases h : (X == "") = true
      · simp [h]
      · simp only [h, Bool.false_eq_true, if_false]
        intro hc
        have hlen := congrArg String.length hc
        rw [String.length_append] at hlen
        simp at hlen
        exact absurd hlen.1 (by decide)
    · unfold synthName
      by_cases h : (X == "") = true
      · simp [h]
      · simp [h]

/-- C3 witness: the name-propagation case at the concrete input of
`test_tool_result_gets_name_from_tool_use`. -/
theorem claim3_witness :
    ¬ "read_file" = "" ∧
    ((flatBlocks [AMsg.mk "assistant"
        (.list [.toolUse "toolu_123" "read_file" (.obj [("path", .str "/test.txt")])])]
      ++ []).any (isToolUseWithId "toolu_123")) = true ∧
    GPart.functionResponse "toolu_123" "read_file"
        (extract_tool_result_output (.str "file contents here")) ∈
      allParts (convert_messages_to_contents
        ([AMsg.mk "assistant"
            (.list [.toolUse "toolu_123" "read_file" (.obj [("path", .str "/test.txt")])])]
          ++ ⟨"user", .list ([] ++ .toolResult "toolu_123" none (.str "file contents here") :: [])⟩
          :: []) false) :=
  ⟨by decide, by decide,
   claim3_tool_result_names.1 false
     [AMsg.mk "assistant"
       (.list [.toolUse "toolu_123" "read_file" (.obj [("path", .str "/test.txt")])])]
     [] "user" [] [] "toolu_123" "read_file" (.str "file contents here")
     (by decide) (by decide) (by decide)⟩

/-- C4: with thinking enabled, budget `B` and `max_tokens = M`: a budget
at or above `M` is clamped to `M - 1`; if the clamped value is ≤ 0 the
generation config carries no thinkingConfig at all; otherwise thinking is
included with the (possibly clamped) budget. -/
theorem claim4_thinking_budget (B M : Int) (msgs : List AMsg)
    (hc : historyCompatible msgs = true) :
    (B ≥ M → 0 < M - 1 →
      (build_generation_config (.enabled (some B)) (some M) msgs).1.thinkingConfig =
        some ⟨true, some (M - 1)⟩) ∧
    (B ≥ M → M - 1 ≤ 0 →
      (build_generation_config (.enabled (some B)) (some M) msgs).1.thinkingConfig =
        none) ∧
    (B < M →
      (build_generation_config (.enabled (some B)) (some M) msgs).1.thinkingConfig =
        some ⟨true, some B⟩) := by
  refine ⟨fun h1 h2 => ?_, fun h1 h2 => ?_, fun h1 => ?_⟩
  · simp [build_generation_config, hc, h1, show ¬ (M - 1 ≤ 0) by omega]
  · simp [build_generation_config, hc, h1, h2]
  · simp [build_generation_config, hc, show ¬ (B ≥ M) by omega]

/-- C4 witness: end-to-end scenarios 1 and 2 — budget `1000` with
`max_tokens = 500` clamps to `499`, and with `max_tokens = 1` thinking is
dropped entirely. -/
theorem claim4_witness :
    historyCompatible [] = true ∧
    (build_generation_config (.enabled (some 1000)) (some 500) []).1.thinkingConfig =
      some ⟨true, some 499⟩ ∧
    (build_generation_config (.enabled (some 1000)) (some 1) []).1.thinkingConfig =
      none :=
  ⟨rfl,
   (claim4_thinking_budget 1000 500 [] rfl).1 (by decide) (by decide),
   (claim4_thinking_budget 1000 1 [] rfl).2.1 (by decide) (by decide)⟩

/-- C8: with thinking enabled and a budget below `max_tokens`, thinking
is requested if and only if the last assistant turn's first content block
is absent, the content is empty, the first block is not a dict, or it is
a dict tagged thinking / redacted_thinking. -/
theorem claim8_history_gate (msgs : List AMsg) (B M : Int) (h : B < M) :
    ((build_generation_config (.enabled (some B)) (some M) msgs).2 = true ↔
      ThinkingPermittedClaim msgs) := by
  constructor
  · intro h2
    by_cases hc : historyCompatible msgs = true
    · exact (historyCompatible_iff msgs).1 hc
    · exfalso
      have hcf : historyCompatible msgs = false := by simpa using hc
      simp [build_generation_config, hcf] at h2
  · intro h2
    have hc := (historyCompatible_iff msgs).2 h2
    simp [build_generation_config, hc, show ¬ (B ≥ M) by omega]

/-- C8 witness: the gate applied to an empty history. -/
theorem claim8_witness :
    (0 : Int) < 100 ∧
    ((build_generation_config (.enabled (some 0)) (some 100) []).2 = true ↔
      ThinkingPermittedClaim []) :=
  ⟨by decide, claim8_history_gate [] 0 100 (by decide)⟩

/-- The upstream response of a turn that called a tool. -/
def respToolUseExample : UpResponse :=
  ⟨[RPart.functionCall none "search" (.obj [("query", .str "x")])], some "STOP"⟩

/-- The upstream response of a plain text turn. -/
def respTextExample : UpResponse :=
  ⟨[RPart.text "Done."], some "STOP"⟩

/-- C7: in the non-streaming converter, `STOP` maps to `end_turn` and
`MAX_TOKENS` to `max_tokens`, but any tool_use block among the produced
content overrides the stop reason to `tool_use`; in every streaming
trace, a tool_use block start forces every message_delta stop reason to
`tool_use`, and in every streaming trace whose consumed chunks carry no
functionCall, every message_delta stop reason is exactly the mapped
stream finish reason (`STOP`→`end_turn`, `MAX_TOKENS`→`max_tokens`);
the terminal-chunk scenarios are also evaluated concretely. -/
theorem claim7_stop_reason :
    (∀ (resp : UpResponse) (te tt : Bool),
      (hasToolUseBlock
          (convert_antigravity_response_to_anthropic_message resp te tt).content = true →
        (convert_antigravity_response_to_anthropic_message resp te tt).stop_reason =
          "tool_use") ∧
      (hasToolUseBlock
          (convert_antigravity_response_to_anthropic_message resp te tt).content = false →
        resp.finishReason = some "STOP" →
        (convert_antigravity_response_to_anthropic_message resp te tt).stop_reason =
          "end_turn") ∧
      (hasToolUseBlock
          (convert_antigravity_response_to_anthropic_message resp te tt).content = false →
        resp.finishReason = some "MAX_TOKENS" →
        (convert_antigravity_response_to_anthropic_message resp te tt).stop_reason =
          "max_tokens")) ∧
    (∀ (te tt : Bool) (mid model : String) (lines : List UpLine) (i : Int) (r : String),
      SEvent.contentBlockStart i "tool_use" ∈
        antigravity_sse_to_anthropic_sse te tt mid model lines →
      SEvent.messageDelta r ∈
        antigravity_sse_to_anthropic_sse te tt mid model lines →
      r = "tool_use") ∧
    (∀ (te tt : Bool) (mid model : String) (lines : List UpLine) (r : String),
      consumedNoFunctionCall lines = true →
      SEvent.messageDelta r ∈
        antigravity_sse_to_anthropic_sse te tt mid model lines →
      r = mapFinishReason (streamFinish lines)) ∧
    SEvent.messageDelta "end_turn" ∈
      antigravity_sse_to_anthropic_sse true false "m" "mod"
        [UpLine.chunk ⟨[RPart.text "Done"], some "STOP"⟩] ∧
    SEvent.messageDelta "max_tokens" ∈
      antigravity_sse_to_anthropic_sse true false "m" "mod"
        [UpLine.chunk ⟨[RPart.text "Truncated"], some "MAX_TOKENS"⟩] ∧
    SEvent.messageDelta "tool_use" ∈
      antigravity_sse_to_anthropic_sse true false "m" "mod"
        [UpLine.chunk ⟨[RPart.functionCall none "search" (.obj [("query", .str "x")])],
          some "STOP"⟩] := by
  refine ⟨?_, ?_, ?_, by decide, by decide, by decide⟩
  · intro resp te tt
    refine ⟨fun h => ?_, fun h hf => ?_, fun h hf => ?_⟩
    · simp [convert_antigravity_response_to_anthropic_message] at h ⊢
      simp [h]
    · simp [convert_antigravity_response_to_anthropic_message] at h ⊢
      simp [h, hf, mapFinishReason]
    · simp [convert_antigravity_response_to_anthropic_message] at h ⊢
      simp [h, hf, mapFinishReason]
  · intro te tt mid model lines i r hs hm
    unfold antigravity_sse_to_anthropic_sse at hs hm
    rcases List.mem_cons.1 hs with h1 | h1
    · exact absurd h1 (by simp)
    · rcases List.mem_cons.1 hm with h2 | h2
      · exact absurd h2 (by simp)
      · exact runLines_toolstart_md te tt _ lines i r h1 h2
  · intro te tt mid model lines r hno hm
    unfold antigravity_sse_to_anthropic_sse at hm
    rcases List.mem_cons.1 hm with h2 | h2
    · exact absurd h2 (by simp)
    · exact runLines_no_fc_md te tt _ lines rfl rfl hno r h2

/-- C7 witness: the override and the `STOP` mapping at concrete
responses, and the general streaming mapping at a concrete
functionCall-free trace. -/
theorem claim7_witness :
    (hasToolUseBlock
        (convert_antigravity_response_to_anthropic_message respToolUseExample
          true false).content = true ∧
      (convert_antigravity_response_to_anthropic_message respToolUseExample
        true false).stop_reason = "tool_use") ∧
    (hasToolUseBlock
        (convert_antigravity_response_to_anthropic_message respTextExample
          true false).content = false ∧
      (convert_antigravity_response_to_anthropic_message respTextExample
        true false).stop_reason = "end_turn") ∧
    (consumedNoFunctionCall
        [UpLine.chunk ⟨[RPart.text "Done"], some "STOP"⟩] = true ∧
      "end_turn" = mapFinishReason (streamFinish
        [UpLine.chunk ⟨[RPart.text "Done"], some "STOP"⟩])) :=
  ⟨⟨by decide, (claim7_stop_reason.1 respToolUseExample true false).1 (by decide)⟩,
   ⟨by decide, (claim7_stop_reason.1 respTextExample true false).2.1 (by decide) rfl⟩,
   ⟨by decide,
    claim7_stop_reason.2.2.1 true false "m" "mod"
      [UpLine.chunk ⟨[RPart.text "Done"], some "STOP"⟩] "end_turn"
      (by decide) (by decide)⟩⟩

/-- C10: the streaming state opens at most one block at a time — the
fresh state has no open block and index `-1`; opening assigns the next
index (so the first open block gets index 0) and records the block type;
closing with no open block returns `none` and leaves the state unchanged;
closing an open block emits its `content_block_stop` and clears the open
type. -/
theorem claim10_streaming_state :
    (∀ mid model,
      (initStreamingState mid model).current_block_type = none ∧
      (initStreamingState mid model).current_block_index = -1 ∧
      (initStreamingState mid model).has_tool_use = false) ∧
    (∀ st btype,
      (open_block st btype).1.current_block_index = st.current_block_index + 1 ∧
      (open_block st btype).1.current_block_type = some btype ∧
      (open_block st btype).2 =
        .contentBlockStart (st.current_block_index + 1) btype) ∧
    (∀ st sig,
      (open_thinking_block st sig).1.current_thinking_signature = sig ∧
      (open_thinking_block st sig).1.current_block_type = some "thinking") ∧
    (∀ st : StreamingState, st.current_block_type = none →
      close_block_if_open st = (st, none)) ∧
    (∀ (st : StreamingState) (b : String), st.current_block_type = some b →
      (close_block_if_open st).2 =
        some (.contentBlockStop st.current_block_index) ∧
      (close_block_if_open st).1.current_block_type = none) := by
  refine ⟨fun _ _ => ⟨rfl, rfl, rfl⟩, fun _ _ => ⟨rfl, rfl, rfl⟩,
    fun _ _ => ⟨rfl, rfl⟩, ?_, ?_⟩
  · intro st h
    unfold close_block_if_open
    rw [h]
  · intro st b h
    constructor <;> simp [close_block_if_open, h]

/-- C10 witness: closing a fresh state is a no-op, and closing after
opening a text block emits the stop for index 0. -/
theorem claim10_witness :
    (initStreamingState "msg_123" "test").current_block_type = none ∧
    close_block_if_open (initStreamingState "msg_123" "test") =
      (initStreamingState "msg_123" "test", none) ∧
    (open_text_block (initStreamingState "msg_123" "test")).1.current_block_type =
      some "text" ∧
    (close_block_if_open
      (open_text_block (initStreamingState "msg_123" "test")).1).2 =
      some (.contentBlockStop 0) :=
  ⟨rfl,
   claim10_streaming_state.2.2.2.1 _ rfl,
   rfl,
   (claim10_streaming_state.2.2.2.2 _ "text" rfl).1⟩

end Gcli2Api
